import Mathlib

/-!
A verification development for the core of `dhall-rust` (the evaluator and
type-checker for the Dhall configuration language).  The Rust sources are
shallowly embedded: pure functions become Lean functions, fallible code
returns `Option`/`Except`, machine naturals/integers become `Nat`/`Int`
(Dhall naturals are unbounded on the Rust side as well, and the word-sized
uses here never overflow in the modelled fragment), and the possibly
non-terminating normalizer is modelled with explicit fuel.

Conventions used throughout:
* `S`-annotations (`Note` nodes) are instantiated at the uninhabited type `X`
  in `normalize.rs` and can never occur, so they are erased from the
  embedding; `Embed` nodes splice in an already-normalized expression and are
  likewise erased (the embedded `Expr` is the `Expr<X, X>` fragment).
* The `dhall_core`/`dhall_syntax` support crates (expression type, shift and
  substitution on expressions, `InterpolatedText`) and `core/var.rs`,
  `core/value.rs`, `core/thunk.rs`, `phase/normalize.rs` are not part of the
  provided sources; where a definition from those files is needed it is
  modelled from the specification and marked `Modelled from the spec:` in its
  doc comment.  Thunks (`Value`, `TypedValue`) are logically immutable
  holders of a `ValueF`, so they are modelled as the underlying `ValueF`.
-/

set_option maxHeartbeats 1600000

namespace Dhall

/-- Textual labels of variables and record/union fields. -/
abbrev Label := String

/-- `V(label, index)`: a variable with a textual label and a De Bruijn index
counting binders of the same label (0 = innermost).  From the spec §4.1;
the concrete type lives in the support crates. -/
structure V where
  label : Label
  idx : Nat
deriving DecidableEq

/-- Modelled from the spec: `AlphaVar` (from the missing `core/var.rs`)
carries a labelled variable together with its alpha-normalized De Bruijn
index; the alpha bookkeeping is erased and only the labelled variable is
kept, as described in spec §4.1. -/
abbrev AlphaVar := V

/-- The universe hierarchy `Type : Kind : Sort` (`Const` in the sources).
Rust derives `Ord` following declaration order: `Type < Kind < Sort`. -/
inductive Const where
  | type
  | kind
  | sort
deriving DecidableEq

/-- Position of a universe in the declaration order, used for `Ord`. -/
def Const.rank : Const → Nat
  | .type => 0
  | .kind => 1
  | .sort => 2

/-- `std::cmp::max` on `Const` under the derived order. -/
def Const.cmax (a b : Const) : Const :=
  if a.rank ≤ b.rank then b else a

/-- The builtin identifiers, as recognized by `Builtin::parse` in
`dhall_syntax/src/parser.rs` (this is the newest generation's list; the
older `dhall_core` generation used by `normalize.rs` predates
`NaturalSubtract` and `TextShow`, whose reductions consequently do not
appear in that file's `apply_builtin`). -/
inductive Builtin where
  | Bool
  | Natural
  | Integer
  | Double
  | Text
  | List
  | Optional
  | OptionalNone
  | NaturalBuild
  | NaturalFold
  | NaturalIsZero
  | NaturalEven
  | NaturalOdd
  | NaturalToInteger
  | NaturalShow
  | NaturalSubtract
  | IntegerToDouble
  | IntegerShow
  | DoubleShow
  | ListBuild
  | ListFold
  | ListLength
  | ListHead
  | ListLast
  | ListIndexed
  | ListReverse
  | OptionalFold
  | OptionalBuild
  | TextShow
deriving DecidableEq

/-- Binary operators (spec §3.1). -/
inductive BinOp where
  | BoolAnd
  | BoolOr
  | BoolEQ
  | BoolNE
  | NaturalPlus
  | NaturalTimes
  | TextAppend
  | ListAppend
  | RecursiveRecordMerge
  | RightBiasedRecordMerge
  | RecursiveRecordTypeMerge
  | ImportAlt
  | Equivalence
deriving DecidableEq

/-- Type-error kinds (spec §7 / `error::TypeMessage`); the payloads
(offending subexpressions, contexts, spans) are irrelevant to the claims
and are erased.  `MergeEmptyNeedsAnnot` abbreviates the source's
`MergeEmptyNeedsAnnotation`. -/
inductive TypeMessage where
  | NoDependentTypes
  | InvalidInputType
  | InvalidOutputType
  | InvalidFieldType
  | RecordTypeDuplicateField
  | UnionTypeDuplicateField
  | Merge1ArgMustBeRecord
  | Merge2ArgMustBeUnion
  | Merge2ArgMustBeUnionOrOptional
  | NotAFunction
  | TypeMismatch
  | MergeHandlerReturnTypeMustNotBeDependent
  | MergeHandlerMissingVariant
  | MergeHandlerTypeMismatch
  | MergeVariantMissingHandler
  | MergeAnnotMismatch
  | MergeEmptyNeedsAnnot
deriving DecidableEq

/-! ### The three coexisting `function_check` implementations (claim C1) -/

/-- `function_check` from `src/dhall/src/typecheck.rs` lines 113-122. -/
def functionCheck (a b : Const) : Except Unit Const :=
  match a, b with
  | _, .type => .ok .type
  | .kind, .kind => .ok .kind
  | .sort, .sort => .ok .sort
  | .sort, .kind => .ok .sort
  | _, _ => .error ()

/-- `function_check` from `src/dhall/src/phase/typecheck.rs` lines 198-207
(same table as the old `typecheck.rs`). -/
def functionCheckPhase (a b : Const) : Except Unit Const :=
  match a, b with
  | _, .type => .ok .type
  | .kind, .kind => .ok .kind
  | .sort, .sort => .ok .sort
  | .sort, .kind => .ok .sort
  | _, _ => .error ()

/-- `function_check` from `src/dhall/src/semantics/phase/typecheck.rs` lines
111-117: total, `Type` when the codomain universe is `Type`, otherwise the
`Ord`-max of the two universes. -/
def functionCheckSemantics (a b : Const) : Const :=
  if b = Const.type then Const.type else Const.cmax a b

/-- The universe computed for a `Pi` node by `typecheck.rs` (lines 374-382):
`function_check`'s failure is reported as `NoDependentTypes`. -/
def piSortOld (ka kb : Const) : Except TypeMessage Const :=
  match functionCheck ka kb with
  | .ok k => .ok k
  | .error () => .error .NoDependentTypes

/-- The universe computed for a `Pi` node by `phase/typecheck.rs`
(`tck_pi_type`, lines 63-74): failure is reported as `NoDependentTypes`. -/
def piSortPhase (ka kb : Const) : Except TypeMessage Const :=
  match functionCheckPhase ka kb with
  | .ok k => .ok k
  | .error () => .error .NoDependentTypes

/-- The universe computed for a `Pi` node by `semantics/phase/typecheck.rs`
(`tck_pi_type`, line 33): `function_check` there is total, so no
`NoDependentTypes` error can arise. -/
def piSortSemantics (ka kb : Const) : Except TypeMessage Const :=
  .ok (functionCheckSemantics ka kb)

/-- The `function_check` table exactly as the specification states it:
`(_, Type) = Type`, `(Kind, Kind) = Kind`, `(Sort, Sort) = Sort`,
`(Sort, Kind) = Sort`, every other combination rejected with
`NoDependentTypes`.  This follows the spec's words, for comparison with the
three implementations above. -/
def functionCheckSpec (a b : Const) : Except TypeMessage Const :=
  match a, b with
  | _, .type => .ok .type
  | .kind, .kind => .ok .kind
  | .sort, .sort => .ok .sort
  | .sort, .kind => .ok .sort
  | _, _ => .error .NoDependentTypes

/-! ### The two `tck_record_type` implementations (claim C3)

Both functions consume, for each record-type field, the label together with
`t.get_type()?.as_const()` — the universe of the field type, or `none` when
the field type's type is not a universe.  The embedding takes that
`Label × Option Const` view of the iterator directly; a `get_type` error
aborts the caller before `tck_record_type` inspects the entry, so it is not
part of the modelled state. -/

/-- Loop of `tck_record_type` from `phase/typecheck.rs` lines 83-121:
`k` starts as `None`, the first field universe sets it, every later field
universe must equal it (`InvalidFieldType` otherwise), duplicate labels are
`RecordTypeDuplicateField`, and the result is `k` (`Type` when empty). -/
def tckRecordTypePhaseGo (seen : List Label) (k : Option Const) :
    List (Label × Option Const) → Except TypeMessage Const
  | [] => .ok (k.getD Const.type)
  | (x, tc) :: rest =>
    match k, tc with
    | none, some k2 =>
      if x ∈ seen then .error .RecordTypeDuplicateField
      else tckRecordTypePhaseGo (x :: seen) (some k2) rest
    | some k1, some k2 =>
      if k1 = k2 then
        if x ∈ seen then .error .RecordTypeDuplicateField
        else tckRecordTypePhaseGo (x :: seen) (some k1) rest
      else .error .InvalidFieldType
    | _, none => .error .InvalidFieldType

/-- `tck_record_type` from `phase/typecheck.rs` lines 83-121 (universe part). -/
def tckRecordTypePhase (kts : List (Label × Option Const)) :
    Except TypeMessage Const :=
  tckRecordTypePhaseGo [] none kts

/-- Loop of `tck_record_type` from `semantics/phase/typecheck.rs` lines
41-70: `k` starts at `Type` and accumulates the `Ord`-max ("the union of the
contained `Const`s") of all field universes; a field whose type's type is
not a universe is `InvalidFieldType`; duplicate labels are
`RecordTypeDuplicateField`. -/
def tckRecordTypeSemanticsGo (seen : List Label) (k : Const) :
    List (Label × Option Const) → Except TypeMessage Const
  | [] => .ok k
  | (x, tc) :: rest =>
    match tc with
    | some k2 =>
      if x ∈ seen then .error .RecordTypeDuplicateField
      else tckRecordTypeSemanticsGo (x :: seen) (Const.cmax k k2) rest
    | none => .error .InvalidFieldType

/-- `tck_record_type` from `semantics/phase/typecheck.rs` lines 41-70
(universe part). -/
def tckRecordTypeSemantics (kts : List (Label × Option Const)) :
    Except TypeMessage Const :=
  tckRecordTypeSemanticsGo [] Const.type kts

/-! ### The expression AST used by `normalize.rs` (claims C4, C6, C7)

`normalize.rs` works on the older generation's `Expr<S, A>` (from the
`dhall_core` support crate, spec §3.1), instantiated at `S = X`
(uninhabited, so `Note` cannot occur) and with `Embed` splicing an
already-normalized expression; both parameters are erased here as explained
in the header.  Applications carry a vector of arguments in this
generation.  `TextLit` holds an `InterpolatedText`: a leading text run
followed by (interpolation, text run) chunks. -/

inductive Expr where
  | Const (c : Const)
  | Var (v : V)
  | Lam (x : Label) (t : Expr) (b : Expr)
  | Pi (x : Label) (t : Expr) (b : Expr)
  | App (f : Expr) (args : List Expr)
  | Let (x : Label) (t : Option Expr) (r : Expr) (b : Expr)
  | Annot (e : Expr) (t : Expr)
  | Builtin (b : Builtin)
  | BoolLit (b : Bool)
  | NaturalLit (n : Nat)
  | IntegerLit (n : Int)
  | DoubleLit (d : UInt64)
  | TextLit (head : String) (chunks : List (Expr × String))
  | BinOp (op : BinOp) (l : Expr) (r : Expr)
  | BoolIf (c : Expr) (t : Expr) (e : Expr)
  | EmptyListLit (t : Expr)
  | NEListLit (xs : List Expr)
  | EmptyOptionalLit (t : Expr)
  | NEOptionalLit (x : Expr)
  | RecordType (kts : List (Label × Expr))
  | RecordLit (kvs : List (Label × Expr))
  | UnionType (kts : List (Label × Expr))
  | UnionLit (l : Label) (x : Expr) (kts : List (Label × Expr))
  | Merge (handlers : Expr) (scrutinee : Expr) (annot : Option Expr)
  | Field (e : Expr) (l : Label)
  | Projection (e : Expr) (ls : List Label)

/-- Lookup in a `BTreeMap<Label, SubExpr>` modelled as an association list
with unique keys (map invariant, spec §3.1). -/
def lookupE (kvs : List (Label × Expr)) (l : Label) : Option Expr :=
  (kvs.find? (fun p => p.1 = l)).map Prod.snd

/-- The threshold adjustment when a shift or substitution descends under a
binder of label `x`: the index of the tracked variable is incremented when
the labels coincide (spec §4.1). -/
def V.underBinder (var : V) (x : Label) : V :=
  if var.label = x then ⟨var.label, var.idx + 1⟩ else var

/-- Modelled from the spec: `shift(Δ, v, e)` on the old-generation
expressions (implemented in the missing `dhall_core` crate, spec §4.1).
Every occurrence `V(x, n)` with `n ≥ k` (where `v = V(x, k)`) becomes
`V(x, n + Δ)`; descending under a binder of label `x` increments the
threshold.  Only the nonnegative shifts used by `normalize.rs` (`shift(1,
…)`) are modelled, so `Δ : Nat` and the operation is total. -/
def shiftVarE (d : Nat) (var v : V) : V :=
  if v.label = var.label ∧ var.idx ≤ v.idx then ⟨v.label, v.idx + d⟩ else v

mutual

/-- Modelled from the spec: structural shift on expressions (spec §4.1). -/
def shiftE (d : Nat) (var : V) : Expr → Expr
  | .Const c => .Const c
  | .Var v => .Var (shiftVarE d var v)
  | .Lam x t b => .Lam x (shiftE d var t) (shiftE d (var.underBinder x) b)
  | .Pi x t b => .Pi x (shiftE d var t) (shiftE d (var.underBinder x) b)
  | .App f args => .App (shiftE d var f) (shiftEList d var args)
  | .Let x t r b =>
    .Let x (shiftEOpt d var t) (shiftE d var r)
      (shiftE d (var.underBinder x) b)
  | .Annot e t => .Annot (shiftE d var e) (shiftE d var t)
  | .Builtin b => .Builtin b
  | .BoolLit b => .BoolLit b
  | .NaturalLit n => .NaturalLit n
  | .IntegerLit n => .IntegerLit n
  | .DoubleLit x => .DoubleLit x
  | .TextLit h chunks => .TextLit h (shiftEChunks d var chunks)
  | .BinOp op l r => .BinOp op (shiftE d var l) (shiftE d var r)
  | .BoolIf c t e =>
    .BoolIf (shiftE d var c) (shiftE d var t) (shiftE d var e)
  | .EmptyListLit t => .EmptyListLit (shiftE d var t)
  | .NEListLit xs => .NEListLit (shiftEList d var xs)
  | .EmptyOptionalLit t => .EmptyOptionalLit (shiftE d var t)
  | .NEOptionalLit x => .NEOptionalLit (shiftE d var x)
  | .RecordType kts => .RecordType (shiftEPairs d var kts)
  | .RecordLit kvs => .RecordLit (shiftEPairs d var kvs)
  | .UnionType kts => .UnionType (shiftEPairs d var kts)
  | .UnionLit l x kts =>
    .UnionLit l (shiftE d var x) (shiftEPairs d var kts)
  | .Merge h u t =>
    .Merge (shiftE d var h) (shiftE d var u) (shiftEOpt d var t)
  | .Field e l => .Field (shiftE d var e) l
  | .Projection e ls => .Projection (shiftE d var e) ls

/-- Shift over argument lists. -/
def shiftEList (d : Nat) (var : V) : List Expr → List Expr
  | [] => []
  | x :: xs => shiftE d var x :: shiftEList d var xs

/-- Shift over record/union maps. -/
def shiftEPairs (d : Nat) (var : V) :
    List (Label × Expr) → List (Label × Expr)
  | [] => []
  | (l, x) :: xs => (l, shiftE d var x) :: shiftEPairs d var xs

/-- Shift over interpolated-text chunks. -/
def shiftEChunks (d : Nat) (var : V) :
    List (Expr × String) → List (Expr × String)
  | [] => []
  | (x, s) :: xs => (shiftE d var x, s) :: shiftEChunks d var xs

/-- Shift over optional subexpressions. -/
def shiftEOpt (d : Nat) (var : V) : Option Expr → Option Expr
  | none => none
  | some x => some (shiftE d var x)

end

mutual

/-- Modelled from the spec: `subst_shift(v, replacement, e)` on the
old-generation expressions (spec §4.1): replaces free occurrences matching
`v` by `replacement`, decrements the index of other same-label occurrences
above the threshold, and shifts the replacement by 1 each time a binder of
`v`'s label is crossed. -/
def substShiftE (var : V) (repl : Expr) : Expr → Expr
  | .Const c => .Const c
  | .Var v =>
    if v = var then repl
    else if v.label = var.label ∧ var.idx < v.idx then
      .Var ⟨v.label, v.idx - 1⟩
    else .Var v
  | .Lam x t b =>
    .Lam x (substShiftE var repl t)
      (substShiftE (var.underBinder x) (shiftE 1 ⟨x, 0⟩ repl) b)
  | .Pi x t b =>
    .Pi x (substShiftE var repl t)
      (substShiftE (var.underBinder x) (shiftE 1 ⟨x, 0⟩ repl) b)
  | .App f args => .App (substShiftE var repl f) (substShiftEList var repl args)
  | .Let x t r b =>
    .Let x (substShiftEOpt var repl t) (substShiftE var repl r)
      (substShiftE (var.underBinder x) (shiftE 1 ⟨x, 0⟩ repl) b)
  | .Annot e t => .Annot (substShiftE var repl e) (substShiftE var repl t)
  | .Builtin b => .Builtin b
  | .BoolLit b => .BoolLit b
  | .NaturalLit n => .NaturalLit n
  | .IntegerLit n => .IntegerLit n
  | .DoubleLit x => .DoubleLit x
  | .TextLit h chunks => .TextLit h (substShiftEChunks var repl chunks)
  | .BinOp op l r =>
    .BinOp op (substShiftE var repl l) (substShiftE var repl r)
  | .BoolIf c t e =>
    .BoolIf (substShiftE var repl c) (substShiftE var repl t)
      (substShiftE var repl e)
  | .EmptyListLit t => .EmptyListLit (substShiftE var repl t)
  | .NEListLit xs => .NEListLit (substShiftEList var repl xs)
  | .EmptyOptionalLit t => .EmptyOptionalLit (substShiftE var repl t)
  | .NEOptionalLit x => .NEOptionalLit (substShiftE var repl x)
  | .RecordType kts => .RecordType (substShiftEPairs var repl kts)
  | .RecordLit kvs => .RecordLit (substShiftEPairs var repl kvs)
  | .UnionType kts => .UnionType (substShiftEPairs var repl kts)
  | .UnionLit l x kts =>
    .UnionLit l (substShiftE var repl x) (substShiftEPairs var repl kts)
  | .Merge h u t =>
    .Merge (substShiftE var repl h) (substShiftE var repl u)
      (substShiftEOpt var repl t)
  | .Field e l => .Field (substShiftE var repl e) l
  | .Projection e ls => .Projection (substShiftE var repl e) ls

/-- Substitution over argument lists. -/
def substShiftEList (var : V) (repl : Expr) : List Expr → List Expr
  | [] => []
  | x :: xs => substShiftE var repl x :: substShiftEList var repl xs

/-- Substitution over record/union maps. -/
def substShiftEPairs (var : V) (repl : Expr) :
    List (Label × Expr) → List (Label × Expr)
  | [] => []
  | (l, x) :: xs => (l, substShiftE var repl x) :: substShiftEPairs var repl xs

/-- Substitution over interpolated-text chunks. -/
def substShiftEChunks (var : V) (repl : Expr) :
    List (Expr × String) → List (Expr × String)
  | [] => []
  | (x, s) :: xs => (substShiftE var repl x, s) :: substShiftEChunks var repl xs

/-- Substitution over optional subexpressions. -/
def substShiftEOpt (var : V) (repl : Expr) : Option Expr → Option Expr
  | none => none
  | some x => some (substShiftE var repl x)

end

/-! ### The normalizer of `normalize.rs` -/

/-- Helper for `textAppend`: append the remaining chunks of the left text,
merging the trailing text run of the last left chunk with the right head. -/
def chunksAppend (h2 : String) (c2 : List (Expr × String)) :
    Expr × String → List (Expr × String) → List (Expr × String)
  | p, [] => (p.1, p.2 ++ h2) :: c2
  | p, q :: rest => p :: chunksAppend h2 c2 q rest

/-- Modelled from the spec: `+` on `InterpolatedText` (missing `dhall_core`
crate).  Concatenates two interpolated texts, merging the adjacent text
runs at the seam so that the "adjacent text runs are merged" invariant of
spec §3.2 is maintained. -/
def textAppend (h1 : String) (c1 : List (Expr × String)) (h2 : String)
    (c2 : List (Expr × String)) : String × List (Expr × String) :=
  match c1 with
  | [] => (h1 ++ h2, c2)
  | p :: rest => (h1, chunksAppend h2 c2 p rest)

/-- The control outcomes of one normalization step (`WhatNext` in
`normalize.rs`; the by-reference variants `DoneRef`/`DoneRefSub` coincide
with `Done` in a pure embedding, and `ContinueSub` with `Continue`). -/
inductive WhatNext where
  | cont (e : Expr)
  | done (e : Expr)
  | asIs

/-- `apply_builtin(b, args)` from `normalize.rs` lines 22-218: if the
arguments match the builtin's arity-and-shape pattern, emit the reduction
(wrapped back around the remaining arguments as `Continue(App(ret, rest))`),
otherwise report the application as already in normal form (`DoneAsIs`).
The fold/build fusion arms in the `*Build` cases reduce a build whose
argument is syntactically an application of the matching fold directly to
the inner expression.  The `NEListLit` patterns assume the non-emptiness
invariant of spec §3.1 (on an empty `NEListLit` the Rust `unwrap`s would
panic); here those impossible inputs fall through to `DoneAsIs`. -/
def applyBuiltin (b : Builtin) (args : List Expr) : WhatNext :=
  match b, args with
  | .OptionalNone, t :: rest =>
    .cont (.App (.EmptyOptionalLit t) rest)
  | .NaturalIsZero, .NaturalLit n :: rest =>
    .cont (.App (.BoolLit (n == 0)) rest)
  | .NaturalEven, .NaturalLit n :: rest =>
    .cont (.App (.BoolLit (n % 2 == 0)) rest)
  | .NaturalOdd, .NaturalLit n :: rest =>
    .cont (.App (.BoolLit (n % 2 != 0)) rest)
  | .NaturalToInteger, .NaturalLit n :: rest =>
    .cont (.App (.IntegerLit (n : Int)) rest)
  | .NaturalShow, .NaturalLit n :: rest =>
    .cont (.App (.TextLit (toString n) []) rest)
  | .ListLength, _ :: .EmptyListLit _ :: rest =>
    .cont (.App (.NaturalLit 0) rest)
  | .ListLength, _ :: .NEListLit ys :: rest =>
    .cont (.App (.NaturalLit ys.length) rest)
  | .ListHead, _ :: .EmptyListLit t :: rest =>
    .cont (.App (.EmptyOptionalLit t) rest)
  | .ListHead, _ :: .NEListLit (y :: _) :: rest =>
    .cont (.App (.NEOptionalLit y) rest)
  | .ListLast, _ :: .EmptyListLit t :: rest =>
    .cont (.App (.EmptyOptionalLit t) rest)
  | .ListLast, _ :: .NEListLit (y :: ys) :: rest =>
    .cont (.App (.NEOptionalLit ((y :: ys).getLast (by simp))) rest)
  | .ListReverse, _ :: .EmptyListLit t :: rest =>
    .cont (.App (.EmptyListLit t) rest)
  | .ListReverse, _ :: .NEListLit ys :: rest =>
    .cont (.App (.NEListLit ys.reverse) rest)
  | .ListIndexed, _ :: .EmptyListLit t :: rest =>
    .cont (.App
      (.EmptyListLit (.RecordType
        [("index", .Builtin .Natural), ("value", t)])) rest)
  | .ListIndexed, _ :: .NEListLit xs :: rest =>
    .cont (.App
      (.NEListLit ((List.range xs.length).zip xs |>.map fun p =>
        .RecordLit [("index", .NaturalLit p.1), ("value", p.2)])) rest)
  | .ListBuild, a0 :: g :: rest =>
    match g with
    | .App (.Builtin .ListFold) (_ :: x :: restInner) =>
      -- fold/build fusion
      .cont (.App (.App x restInner) rest)
    | _ =>
      .cont (.App
        (.App g
          [.App (.Builtin .List) [a0],
           .Lam "x" a0 (.Lam "xs" (.App (.Builtin .List)
               [shiftE 1 ⟨"x", 0⟩ a0])
             (.BinOp .ListAppend (.NEListLit [.Var ⟨"x", 0⟩])
               (.Var ⟨"xs", 0⟩))),
           .EmptyListLit a0]) rest)
  | .OptionalBuild, a0 :: g :: rest =>
    match g with
    | .App (.Builtin .OptionalFold) (_ :: x :: restInner) =>
      -- fold/build fusion
      .cont (.App (.App x restInner) rest)
    | _ =>
      .cont (.App
        (.App g
          [.App (.Builtin .Optional) [a0],
           .Lam "x" a0 (.NEOptionalLit (.Var ⟨"x", 0⟩)),
           .App (.Builtin .OptionalNone) [a0]]) rest)
  | .ListFold, _ :: .EmptyListLit _ :: _ :: _ :: nil :: rest =>
    .cont (.App nil rest)
  | .ListFold, _ :: .NEListLit xs :: _ :: cons :: nil :: rest =>
    .cont (.App (xs.foldr (fun x acc => .App cons [x, acc]) nil) rest)
  | .OptionalFold, _ :: .NEOptionalLit x :: _ :: just :: _ :: rest =>
    .cont (.App (.App just [x]) rest)
  | .OptionalFold, _ :: .EmptyOptionalLit _ :: _ :: _ :: nothing :: rest =>
    .cont (.App nothing rest)
  | .NaturalBuild, g :: rest =>
    match g with
    | .App (.Builtin .NaturalFold) (x :: restInner) =>
      -- fold/build fusion
      .cont (.App (.App x restInner) rest)
    | _ =>
      .cont (.App
        (.App g
          [.Builtin .Natural,
           .Lam "x" (.Builtin .Natural)
             (.BinOp .NaturalPlus (.Var ⟨"x", 0⟩) (.NaturalLit 1)),
           .NaturalLit 0]) rest)
  | .NaturalFold, .NaturalLit 0 :: _ :: _ :: zero :: rest =>
    .cont (.App zero rest)
  | .NaturalFold, .NaturalLit (n + 1) :: t :: succ :: zero :: rest =>
    .cont (.App
      (.App succ
        [.App (.Builtin .NaturalFold) [.NaturalLit n, t, succ, zero]]) rest)
  | .IntegerShow, .IntegerLit n :: rest =>
    .cont (.App
      (.TextLit ((if n < 0 then "" else "+") ++ toString n) []) rest)
  | _, _ => .asIs

/-- The head dispatch of `normalize_ref` (`normalize.rs` lines 241-310),
applied to an expression whose immediate subexpressions have already been
normalized.  The `Note` and `Embed` arms are erased (see the header). -/
def whatNext : Expr → WhatNext
  | .Let f _ r b => .cont (substShiftE ⟨f, 0⟩ r b)
  | .Annot x _ => .done x
  | .App f [] => .done f
  | .App (.App f args1) args2 => .cont (.App f (args1 ++ args2))
  | .App (.Builtin b) args => applyBuiltin b args
  | .App (.Lam x _ b) (a :: rest) =>
    .cont (.App (substShiftE ⟨x, 0⟩ a b) rest)
  | .BoolIf (.BoolLit true) t _ => .done t
  | .BoolIf (.BoolLit false) _ f => .done f
  | .BinOp .BoolAnd (.BoolLit x) (.BoolLit y) => .done (.BoolLit (x && y))
  | .BinOp .BoolOr (.BoolLit x) (.BoolLit y) => .done (.BoolLit (x || y))
  | .BinOp .BoolEQ (.BoolLit x) (.BoolLit y) => .done (.BoolLit (x == y))
  | .BinOp .BoolNE (.BoolLit x) (.BoolLit y) => .done (.BoolLit (x != y))
  | .BinOp .NaturalPlus (.NaturalLit x) (.NaturalLit y) =>
    .done (.NaturalLit (x + y))
  | .BinOp .NaturalTimes (.NaturalLit x) (.NaturalLit y) =>
    .done (.NaturalLit (x * y))
  | .BinOp .TextAppend (.TextLit h1 c1) (.TextLit h2 c2) =>
    .done (.TextLit (textAppend h1 c1 h2 c2).1 (textAppend h1 c1 h2 c2).2)
  | .BinOp .ListAppend (.EmptyListLit _) y => .done y
  | .BinOp .ListAppend x (.EmptyListLit _) => .done x
  | .BinOp .ListAppend (.NEListLit xs) (.NEListLit ys) =>
    .done (.NEListLit (xs ++ ys))
  | .Merge (.RecordLit handlers) (.UnionLit k v _) _ =>
    match lookupE handlers k with
    | some h => .cont (.App h [v])
    | none => .asIs
  | .Field (.RecordLit kvs) l =>
    match lookupE kvs l with
    | some r => .done r
    | none => .asIs
  | .Projection _ [] => .done (.RecordLit [])
  | .Projection (.RecordLit kvs) ls =>
    .done (.RecordLit (ls.filterMap fun l => (lookupE kvs l).map ((l, ·))))
  | _ => .asIs

/-- Fallible map over a list (`Option`-valued), used to thread the
fuel-bounded recursive normalization through subexpression lists. -/
def mapMo {α β : Type} (f : α → Option β) : List α → Option (List β)
  | [] => some []
  | x :: xs =>
    match f x, mapMo f xs with
    | some y, some ys => some (y :: ys)
    | _, _ => none

/-- Fallible map over the value component of labelled pairs. -/
def mapSnd {α β : Type} (f : β → Option β) :
    List (α × β) → Option (List (α × β))
  | [] => some []
  | (l, x) :: xs =>
    match f x, mapSnd f xs with
    | some y, some ys => some ((l, y) :: ys)
    | _, _ => none

/-- Fallible map over the expression component of text chunks. -/
def mapFst {α β : Type} (f : α → Option α) :
    List (α × β) → Option (List (α × β))
  | [] => some []
  | (x, s) :: xs =>
    match f x, mapFst f xs with
    | some y, some ys => some ((y, s) :: ys)
    | _, _ => none

/-- Fallible map over an optional subexpression. -/
def mapOpt {α : Type} (f : α → Option α) : Option α → Option (Option α)
  | none => some none
  | some x => (f x).map some

/-- One layer of `map_ref_simple`: apply `f` to every immediate
subexpression, propagating failure (failure only arises from fuel
exhaustion of the fuel-bounded normalizer threaded through here). -/
def mapChildren (f : Expr → Option Expr) : Expr → Option Expr
  | .Const c => some (.Const c)
  | .Var v => some (.Var v)
  | .Lam x t b =>
    match f t, f b with
    | some t', some b' => some (.Lam x t' b')
    | _, _ => none
  | .Pi x t b =>
    match f t, f b with
    | some t', some b' => some (.Pi x t' b')
    | _, _ => none
  | .App g args =>
    match f g, mapMo f args with
    | some g', some args' => some (.App g' args')
    | _, _ => none
  | .Let x t r b =>
    match mapOpt f t, f r, f b with
    | some t', some r', some b' => some (.Let x t' r' b')
    | _, _, _ => none
  | .Annot e t =>
    match f e, f t with
    | some e', some t' => some (.Annot e' t')
    | _, _ => none
  | .Builtin b => some (.Builtin b)
  | .BoolLit b => some (.BoolLit b)
  | .NaturalLit n => some (.NaturalLit n)
  | .IntegerLit n => some (.IntegerLit n)
  | .DoubleLit d => some (.DoubleLit d)
  | .TextLit h chunks =>
    match mapFst f chunks with
    | some chunks' => some (.TextLit h chunks')
    | none => none
  | .BinOp op l r =>
    match f l, f r with
    | some l', some r' => some (.BinOp op l' r')
    | _, _ => none
  | .BoolIf c t e =>
    match f c, f t, f e with
    | some c', some t', some e' => some (.BoolIf c' t' e')
    | _, _, _ => none
  | .EmptyListLit t =>
    match f t with
    | some t' => some (.EmptyListLit t')
    | none => none
  | .NEListLit xs =>
    match mapMo f xs with
    | some xs' => some (.NEListLit xs')
    | none => none
  | .EmptyOptionalLit t =>
    match f t with
    | some t' => some (.EmptyOptionalLit t')
    | none => none
  | .NEOptionalLit x =>
    match f x with
    | some x' => some (.NEOptionalLit x')
    | none => none
  | .RecordType kts =>
    match mapSnd f kts with
    | some kts' => some (.RecordType kts')
    | none => none
  | .RecordLit kvs =>
    match mapSnd f kvs with
    | some kvs' => some (.RecordLit kvs')
    | none => none
  | .UnionType kts =>
    match mapSnd f kts with
    | some kts' => some (.UnionType kts')
    | none => none
  | .UnionLit l x kts =>
    match f x, mapSnd f kts with
    | some x', some kts' => some (.UnionLit l x' kts')
    | _, _ => none
  | .Merge h u t =>
    match f h, f u, mapOpt f t with
    | some h', some u', some t' => some (.Merge h' u' t')
    | _, _, _ => none
  | .Field e l =>
    match f e with
    | some e' => some (.Field e' l)
    | none => none
  | .Projection e ls =>
    match f e with
    | some e' => some (.Projection e' ls)
    | none => none

/-- Fuel-bounded embedding of `normalize_ref` (`normalize.rs` lines
233-341): first normalize every immediate subexpression, then dispatch on
the resulting layer; a `Continue` outcome recurses on the rewritten
expression.  The Rust function is recursive without any decreasing measure,
so it is modelled with explicit fuel: `none` means the computation did not
complete within the given fuel; `normalize_ref e = v` in Rust corresponds to
`∃ n, normalizeRef n e = some v`. -/
def normalizeRef : Nat → Expr → Option Expr
  | 0, _ => none
  | n + 1, e =>
    match mapChildren (normalizeRef n) e with
    | none => none
    | some e' =>
      match whatNext e' with
      | .cont e2 => normalizeRef n e2
      | .done v => some v
      | .asIs => some e'

/-! ### Semantic values: `ValueF` from `core/valuef.rs`

`ValueF` subterms are `Value`s/`TypedValue`s (memoising thunks from the
missing `core/value.rs`); being logically immutable holders of a value they
are modelled as the underlying `ValueF` (spec §3.3, §3.4).  The record and
union `HashMap`s are modelled as association lists with unique labels.
`PartialExpr` holds one expression layer over values: `ExprF<Value,
Normalized>` from the (missing) `dhall_syntax` crate, modelled from spec
§3.1; in this newer generation `App` is binary, union variants are
optional, and `Embed` holds an already-normalized expression, modelled as
its value.  `NaiveDouble` is carried as its bit pattern. -/

mutual

inductive ValueF where
  | Lam (x : Label) (t : ValueF) (e : ValueF)
  | Pi (x : Label) (t : ValueF) (e : ValueF)
  | AppliedBuiltin (b : Builtin) (args : List ValueF)
  | Var (v : AlphaVar)
  | Const (c : Const)
  | BoolLit (b : Bool)
  | NaturalLit (n : Nat)
  | IntegerLit (n : Int)
  | DoubleLit (d : UInt64)
  | EmptyOptionalLit (t : ValueF)
  | NEOptionalLit (v : ValueF)
  | EmptyListLit (t : ValueF)
  | NEListLit (elts : List ValueF)
  | RecordLit (kvs : List (Label × ValueF))
  | RecordType (kts : List (Label × ValueF))
  | UnionType (kts : List (Label × Option ValueF))
  | UnionConstructor (l : Label) (kts : List (Label × Option ValueF))
  | UnionLit (l : Label) (v : ValueF) (kts : List (Label × Option ValueF))
  | TextLit (elts : List InterpolatedTextContents)
  | Equivalence (x : ValueF) (y : ValueF)
  | PartialExpr (e : ExprFV)

/-- `InterpolatedTextContents<Value>`: a text run or an interpolated value. -/
inductive InterpolatedTextContents where
  | Text (s : String)
  | Expr (e : ValueF)

/-- Modelled from the spec: one layer of `ExprF<Value, Normalized>`
(spec §3.1) with value-typed children. -/
inductive ExprFV where
  | Const (c : Const)
  | Var (v : V)
  | Lam (x : Label) (t : ValueF) (b : ValueF)
  | Pi (x : Label) (t : ValueF) (b : ValueF)
  | App (f : ValueF) (a : ValueF)
  | Let (x : Label) (t : Option ValueF) (r : ValueF) (b : ValueF)
  | Annot (e : ValueF) (t : ValueF)
  | Builtin (b : Builtin)
  | BoolLit (b : Bool)
  | NaturalLit (n : Nat)
  | IntegerLit (n : Int)
  | DoubleLit (d : UInt64)
  | TextLit (head : String) (chunks : List (ValueF × String))
  | BinOp (op : BinOp) (l : ValueF) (r : ValueF)
  | BoolIf (c : ValueF) (t : ValueF) (e : ValueF)
  | EmptyListLit (t : ValueF)
  | NEListLit (xs : List ValueF)
  | SomeLit (e : ValueF)
  | RecordType (kts : List (Label × ValueF))
  | RecordLit (kvs : List (Label × ValueF))
  | UnionType (kts : List (Label × Option ValueF))
  | Field (e : ValueF) (l : Label)
  | Projection (e : ValueF) (ls : List Label)
  | Merge (h : ValueF) (u : ValueF) (t : Option ValueF)
  | ToMap (e : ValueF) (t : Option ValueF)
  | Assert (e : ValueF)
  | Embed (e : ValueF)

end

/-- Modelled from the spec: `shift` on an `AlphaVar` occurrence (missing
`core/var.rs`, spec §4.1): an occurrence `V(x, n)` with `n ≥ k` relative to
the tracked variable `V(x, k)` is moved to `V(x, n + Δ)`, failing (`None`)
when the adjusted index would become negative; other occurrences are
untouched. -/
def varShift (d : Int) (var v : V) : Option V :=
  if v.label = var.label ∧ var.idx ≤ v.idx then
    let i : Int := (v.idx : Int) + d
    if i < 0 then none else some ⟨v.label, i.toNat⟩
  else some v

mutual

/-- `impl Shift for ValueF` (`core/valuef.rs` lines 282-336): structural
shift through all subvalues and closure types, moving the threshold under
binders; `None` propagates a failed variable shift. -/
def shiftV (d : Int) (var : V) : ValueF → Option ValueF
  | .Lam x t e =>
    match shiftV d var t, shiftV d (var.underBinder x) e with
    | some t', some e' => some (.Lam x t' e')
    | _, _ => none
  | .Pi x t e =>
    match shiftV d var t, shiftV d (var.underBinder x) e with
    | some t', some e' => some (.Pi x t' e')
    | _, _ => none
  | .AppliedBuiltin b args =>
    match shiftVList d var args with
    | some args' => some (.AppliedBuiltin b args')
    | none => none
  | .Var v =>
    match varShift d var v with
    | some v' => some (.Var v')
    | none => none
  | .Const c => some (.Const c)
  | .BoolLit b => some (.BoolLit b)
  | .NaturalLit n => some (.NaturalLit n)
  | .IntegerLit n => some (.IntegerLit n)
  | .DoubleLit x => some (.DoubleLit x)
  | .EmptyOptionalLit t =>
    match shiftV d var t with
    | some t' => some (.EmptyOptionalLit t')
    | none => none
  | .NEOptionalLit v =>
    match shiftV d var v with
    | some v' => some (.NEOptionalLit v')
    | none => none
  | .EmptyListLit t =>
    match shiftV d var t with
    | some t' => some (.EmptyListLit t')
    | none => none
  | .NEListLit elts =>
    match shiftVList d var elts with
    | some elts' => some (.NEListLit elts')
    | none => none
  | .RecordLit kvs =>
    match shiftVPairs d var kvs with
    | some kvs' => some (.RecordLit kvs')
    | none => none
  | .RecordType kts =>
    match shiftVPairs d var kts with
    | some kts' => some (.RecordType kts')
    | none => none
  | .UnionType kts =>
    match shiftVOptPairs d var kts with
    | some kts' => some (.UnionType kts')
    | none => none
  | .UnionConstructor x kts =>
    match shiftVOptPairs d var kts with
    | some kts' => some (.UnionConstructor x kts')
    | none => none
  | .UnionLit x v kts =>
    match shiftV d var v, shiftVOptPairs d var kts with
    | some v', some kts' => some (.UnionLit x v' kts')
    | _, _ => none
  | .TextLit elts =>
    match shiftVText d var elts with
    | some elts' => some (.TextLit elts')
    | none => none
  | .Equivalence x y =>
    match shiftV d var x, shiftV d var y with
    | some x', some y' => some (.Equivalence x' y')
    | _, _ => none
  | .PartialExpr e =>
    match shiftVExprF d var e with
    | some e' => some (.PartialExpr e')
    | none => none

/-- Shift over value lists. -/
def shiftVList (d : Int) (var : V) : List ValueF → Option (List ValueF)
  | [] => some []
  | x :: xs =>
    match shiftV d var x, shiftVList d var xs with
    | some y, some ys => some (y :: ys)
    | _, _ => none

/-- Shift over record maps. -/
def shiftVPairs (d : Int) (var : V) :
    List (Label × ValueF) → Option (List (Label × ValueF))
  | [] => some []
  | (l, x) :: xs =>
    match shiftV d var x, shiftVPairs d var xs with
    | some y, some ys => some ((l, y) :: ys)
    | _, _ => none

/-- Shift over union maps (variants may be bare). -/
def shiftVOptPairs (d : Int) (var : V) :
    List (Label × Option ValueF) → Option (List (Label × Option ValueF))
  | [] => some []
  | (l, none) :: xs =>
    match shiftVOptPairs d var xs with
    | some ys => some ((l, none) :: ys)
    | none => none
  | (l, some x) :: xs =>
    match shiftV d var x, shiftVOptPairs d var xs with
    | some y, some ys => some ((l, some y) :: ys)
    | _, _ => none

/-- Shift over interpolated-text segments. -/
def shiftVText (d : Int) (var : V) :
    List InterpolatedTextContents → Option (List InterpolatedTextContents)
  | [] => some []
  | .Text s :: xs =>
    match shiftVText d var xs with
    | some ys => some (.Text s :: ys)
    | none => none
  | .Expr x :: xs =>
    match shiftV d var x, shiftVText d var xs with
    | some y, some ys => some (.Expr y :: ys)
    | _, _ => none

/-- Shift over text chunks inside a `PartialExpr`. -/
def shiftVChunks (d : Int) (var : V) :
    List (ValueF × String) → Option (List (ValueF × String))
  | [] => some []
  | (x, s) :: xs =>
    match shiftV d var x, shiftVChunks d var xs with
    | some y, some ys => some ((y, s) :: ys)
    | _, _ => none

/-- Shift over optional subvalues. -/
def shiftVOpt (d : Int) (var : V) : Option ValueF → Option (Option ValueF)
  | none => some none
  | some x =>
    match shiftV d var x with
    | some y => some (some y)
    | none => none

/-- Modelled from the spec: `impl Shift for ExprF<Value, Normalized>`
(missing `core/var.rs`): a binder-aware traversal shifting every value
child, moving the threshold under the `Lam`/`Pi`/`Let` binders. -/
def shiftVExprF (d : Int) (var : V) : ExprFV → Option ExprFV
  | .Const c => some (.Const c)
  | .Var v => some (.Var v)
  | .Lam x t b =>
    match shiftV d var t, shiftV d (var.underBinder x) b with
    | some t', some b' => some (.Lam x t' b')
    | _, _ => none
  | .Pi x t b =>
    match shiftV d var t, shiftV d (var.underBinder x) b with
    | some t', some b' => some (.Pi x t' b')
    | _, _ => none
  | .App f a =>
    match shiftV d var f, shiftV d var a with
    | some f', some a' => some (.App f' a')
    | _, _ => none
  | .Let x t r b =>
    match shiftVOpt d var t, shiftV d var r,
        shiftV d (var.underBinder x) b with
    | some t', some r', some b' => some (.Let x t' r' b')
    | _, _, _ => none
  | .Annot e t =>
    match shiftV d var e, shiftV d var t with
    | some e', some t' => some (.Annot e' t')
    | _, _ => none
  | .Builtin b => some (.Builtin b)
  | .BoolLit b => some (.BoolLit b)
  | .NaturalLit n => some (.NaturalLit n)
  | .IntegerLit n => some (.IntegerLit n)
  | .DoubleLit x => some (.DoubleLit x)
  | .TextLit h chunks =>
    match shiftVChunks d var chunks with
    | some chunks' => some (.TextLit h chunks')
    | none => none
  | .BinOp op l r =>
    match shiftV d var l, shiftV d var r with
    | some l', some r' => some (.BinOp op l' r')
    | _, _ => none
  | .BoolIf c t e =>
    match shiftV d var c, shiftV d var t, shiftV d var e with
    | some c', some t', some e' => some (.BoolIf c' t' e')
    | _, _, _ => none
  | .EmptyListLit t =>
    match shiftV d var t with
    | some t' => some (.EmptyListLit t')
    | none => none
  | .NEListLit xs =>
    match shiftVList d var xs with
    | some xs' => some (.NEListLit xs')
    | none => none
  | .SomeLit e =>
    match shiftV d var e with
    | some e' => some (.SomeLit e')
    | none => none
  | .RecordType kts =>
    match shiftVPairs d var kts with
    | some kts' => some (.RecordType kts')
    | none => none
  | .RecordLit kvs =>
    match shiftVPairs d var kvs with
    | some kvs' => some (.RecordLit kvs')
    | none => none
  | .UnionType kts =>
    match shiftVOptPairs d var kts with
    | some kts' => some (.UnionType kts')
    | none => none
  | .Field e l =>
    match shiftV d var e with
    | some e' => some (.Field e' l)
    | none => none
  | .Projection e ls =>
    match shiftV d var e with
    | some e' => some (.Projection e' ls)
    | none => none
  | .Merge h u t =>
    match shiftV d var h, shiftV d var u, shiftVOpt d var t with
    | some h', some u', some t' => some (.Merge h' u' t')
    | _, _, _ => none
  | .ToMap e t =>
    match shiftV d var e, shiftVOpt d var t with
    | some e', some t' => some (.ToMap e' t')
    | _, _ => none
  | .Assert e =>
    match shiftV d var e with
    | some e' => some (.Assert e')
    | none => none
  | .Embed e =>
    match shiftV d var e with
    | some e' => some (.Embed e')
    | none => none

end

/-- `Typed::under_binder` for the substituted replacement (missing
`core/var.rs`): shift the replacement by `+1` with respect to the crossed
binder.  A `+1` shift never fails, so the `getD` fallback is dead code
(mirroring the unwrap in the source). -/
def valUnderBinder (x : Label) (val : ValueF) : ValueF :=
  (shiftV 1 ⟨x, 0⟩ val).getD val

mutual

/-- `impl Subst<Typed> for ValueF` (`core/valuef.rs` lines 338-405),
parametric in the three helpers it calls from the missing
`phase/normalize.rs` (`apply_builtin`, `normalize_one_layer`,
`squash_textlit` — total functions re-running normalization after the
substitution may have unlocked progress).  The result is `Option`-valued
solely to model the `unwrap` in the non-matching `Var` branch: `none` is
the panic. -/
def substShiftV (applyB : Builtin → List ValueF → ValueF)
    (normOne : ExprFV → ValueF)
    (squash : List InterpolatedTextContents → List InterpolatedTextContents)
    (var : V) (val : ValueF) : ValueF → Option ValueF
  | .AppliedBuiltin b args =>
    -- Retry normalizing since substituting may allow progress
    match substShiftVList applyB normOne squash var val args with
    | some args' => some (applyB b args')
    | none => none
  | .PartialExpr e =>
    -- Retry normalizing since substituting may allow progress
    match substShiftVExprF applyB normOne squash var val e with
    | some e' => some (normOne e')
    | none => none
  | .TextLit elts =>
    -- Retry normalizing since substituting may allow progress
    match substShiftVText applyB normOne squash var val elts with
    | some elts' => some (.TextLit (squash elts'))
    | none => none
  | .Lam x t e =>
    match substShiftV applyB normOne squash var val t,
        substShiftV applyB normOne squash (var.underBinder x)
          (valUnderBinder x val) e with
    | some t', some e' => some (.Lam x t' e')
    | _, _ => none
  | .Pi x t e =>
    match substShiftV applyB normOne squash var val t,
        substShiftV applyB normOne squash (var.underBinder x)
          (valUnderBinder x val) e with
    | some t', some e' => some (.Pi x t' e')
    | _, _ => none
  | .Var v =>
    if v = var then some val
    else
      match varShift (-1) var v with
      | some v' => some (.Var v')
      | none => none
  | .Const c => some (.Const c)
  | .BoolLit b => some (.BoolLit b)
  | .NaturalLit n => some (.NaturalLit n)
  | .IntegerLit n => some (.IntegerLit n)
  | .DoubleLit x => some (.DoubleLit x)
  | .EmptyOptionalLit t =>
    match substShiftV applyB normOne squash var val t with
    | some t' => some (.EmptyOptionalLit t')
    | none => none
  | .NEOptionalLit v =>
    match substShiftV applyB normOne squash var val v with
    | some v' => some (.NEOptionalLit v')
    | none => none
  | .EmptyListLit t =>
    match substShiftV applyB normOne squash var val t with
    | some t' => some (.EmptyListLit t')
    | none => none
  | .NEListLit elts =>
    match substShiftVList applyB normOne squash var val elts with
    | some elts' => some (.NEListLit elts')
    | none => none
  | .RecordLit kvs =>
    match substShiftVPairs applyB normOne squash var val kvs with
    | some kvs' => some (.RecordLit kvs')
    | none => none
  | .RecordType kts =>
    match substShiftVPairs applyB normOne squash var val kts with
    | some kts' => some (.RecordType kts')
    | none => none
  | .UnionType kts =>
    match substShiftVOptPairs applyB normOne squash var val kts with
    | some kts' => some (.UnionType kts')
    | none => none
  | .UnionConstructor x kts =>
    match substShiftVOptPairs applyB normOne squash var val kts with
    | some kts' => some (.UnionConstructor x kts')
    | none => none
  | .UnionLit x v kts =>
    match substShiftV applyB normOne squash var val v,
        substShiftVOptPairs applyB normOne squash var val kts with
    | some v', some kts' => some (.UnionLit x v' kts')
    | _, _ => none
  | .Equivalence x y =>
    match substShiftV applyB normOne squash var val x,
        substShiftV applyB normOne squash var val y with
    | some x', some y' => some (.Equivalence x' y')
    | _, _ => none

/-- Substitution over value lists. -/
def substShiftVList (applyB : Builtin → List ValueF → ValueF)
    (normOne : ExprFV → ValueF)
    (squash : List InterpolatedTextContents → List InterpolatedTextContents)
    (var : V) (val : ValueF) : List ValueF → Option (List ValueF)
  | [] => some []
  | x :: xs =>
    match substShiftV applyB normOne squash var val x,
        substShiftVList applyB normOne squash var val xs with
    | some y, some ys => some (y :: ys)
    | _, _ => none

/-- Substitution over record maps. -/
def substShiftVPairs (applyB : Builtin → List ValueF → ValueF)
    (normOne : ExprFV → ValueF)
    (squash : List InterpolatedTextContents → List InterpolatedTextContents)
    (var : V) (val : ValueF) :
    List (Label × ValueF) → Option (List (Label × ValueF))
  | [] => some []
  | (l, x) :: xs =>
    match substShiftV applyB normOne squash var val x,
        substShiftVPairs applyB normOne squash var val xs with
    | some y, some ys => some ((l, y) :: ys)
    | _, _ => none

/-- Substitution over union maps. -/
def substShiftVOptPairs (applyB : Builtin → List ValueF → ValueF)
    (normOne : ExprFV → ValueF)
    (squash : List InterpolatedTextContents → List InterpolatedTextContents)
    (var : V) (val : ValueF) :
    List (Label × Option ValueF) → Option (List (Label × Option ValueF))
  | [] => some []
  | (l, none) :: xs =>
    match substShiftVOptPairs applyB normOne squash var val xs with
    | some ys => some ((l, none) :: ys)
    | none => none
  | (l, some x) :: xs =>
    match substShiftV applyB normOne squash var val x,
        substShiftVOptPairs applyB normOne squash var val xs with
    | some y, some ys => some ((l, some y) :: ys)
    | _, _ => none

/-- Substitution over interpolated-text segments. -/
def substShiftVText (applyB : Builtin → List ValueF → ValueF)
    (normOne : ExprFV → ValueF)
    (squash : List InterpolatedTextContents → List InterpolatedTextContents)
    (var : V) (val : ValueF) :
    List InterpolatedTextContents → Option (List InterpolatedTextContents)
  | [] => some []
  | .Text s :: xs =>
    match substShiftVText applyB normOne squash var val xs with
    | some ys => some (.Text s :: ys)
    | none => none
  | .Expr x :: xs =>
    match substShiftV applyB normOne squash var val x,
        substShiftVText applyB normOne squash var val xs with
    | some y, some ys => some (.Expr y :: ys)
    | _, _ => none

/-- Substitution over text chunks inside a `PartialExpr`. -/
def substShiftVChunks (applyB : Builtin → List ValueF → ValueF)
    (normOne : ExprFV → ValueF)
    (squash : List InterpolatedTextContents → List InterpolatedTextContents)
    (var : V) (val : ValueF) :
    List (ValueF × String) → Option (List (ValueF × String))
  | [] => some []
  | (x, s) :: xs =>
    match substShiftV applyB normOne squash var val x,
        substShiftVChunks applyB normOne squash var val xs with
    | some y, some ys => some ((y, s) :: ys)
    | _, _ => none

/-- Substitution over optional subvalues. -/
def substShiftVOpt (applyB : Builtin → List ValueF → ValueF)
    (normOne : ExprFV → ValueF)
    (squash : List InterpolatedTextContents → List InterpolatedTextContents)
    (var : V) (val : ValueF) : Option ValueF → Option (Option ValueF)
  | none => some none
  | some x =>
    match substShiftV applyB normOne squash var val x with
    | some y => some (some y)
    | none => none

/-- Modelled from the spec: `impl Subst for ExprF<Value, Normalized>`
(missing `core/var.rs`): binder-aware traversal substituting in every value
child. -/
def substShiftVExprF (applyB : Builtin → List ValueF → ValueF)
    (normOne : ExprFV → ValueF)
    (squash : List InterpolatedTextContents → List InterpolatedTextContents)
    (var : V) (val : ValueF) : ExprFV → Option ExprFV
  | .Const c => some (.Const c)
  | .Var v => some (.Var v)
  | .Lam x t b =>
    match substShiftV applyB normOne squash var val t,
        substShiftV applyB normOne squash (var.underBinder x)
          (valUnderBinder x val) b with
    | some t', some b' => some (.Lam x t' b')
    | _, _ => none
  | .Pi x t b =>
    match substShiftV applyB normOne squash var val t,
        substShiftV applyB normOne squash (var.underBinder x)
          (valUnderBinder x val) b with
    | some t', some b' => some (.Pi x t' b')
    | _, _ => none
  | .App f a =>
    match substShiftV applyB normOne squash var val f,
        substShiftV applyB normOne squash var val a with
    | some f', some a' => some (.App f' a')
    | _, _ => none
  | .Let x t r b =>
    match substShiftVOpt applyB normOne squash var val t,
        substShiftV applyB normOne squash var val r,
        substShiftV applyB normOne squash (var.underBinder x)
          (valUnderBinder x val) b with
    | some t', some r', some b' => some (.Let x t' r' b')
    | _, _, _ => none
  | .Annot e t =>
    match substShiftV applyB normOne squash var val e,
        substShiftV applyB normOne squash var val t with
    | some e', some t' => some (.Annot e' t')
    | _, _ => none
  | .Builtin b => some (.Builtin b)
  | .BoolLit b => some (.BoolLit b)
  | .NaturalLit n => some (.NaturalLit n)
  | .IntegerLit n => some (.IntegerLit n)
  | .DoubleLit x => some (.DoubleLit x)
  | .TextLit h chunks =>
    match substShiftVChunks applyB normOne squash var val chunks with
    | some chunks' => some (.TextLit h chunks')
    | none => none
  | .BinOp op l r =>
    match substShiftV applyB normOne squash var val l,
        substShiftV applyB normOne squash var val r with
    | some l', some r' => some (.BinOp op l' r')
    | _, _ => none
  | .BoolIf c t e =>
    match substShiftV applyB normOne squash var val c,
        substShiftV applyB normOne squash var val t,
        substShiftV applyB normOne squash var val e with
    | some c', some t', some e' => some (.BoolIf c' t' e')
    | _, _, _ => none
  | .EmptyListLit t =>
    match substShiftV applyB normOne squash var val t with
    | some t' => some (.EmptyListLit t')
    | none => none
  | .NEListLit xs =>
    match substShiftVList applyB normOne squash var val xs with
    | some xs' => some (.NEListLit xs')
    | none => none
  | .SomeLit e =>
    match substShiftV applyB normOne squash var val e with
    | some e' => some (.SomeLit e')
    | none => none
  | .RecordType kts =>
    match substShiftVPairs applyB normOne squash var val kts with
    | some kts' => some (.RecordType kts')
    | none => none
  | .RecordLit kvs =>
    match substShiftVPairs applyB normOne squash var val kvs with
    | some kvs' => some (.RecordLit kvs')
    | none => none
  | .UnionType kts =>
    match substShiftVOptPairs applyB normOne squash var val kts with
    | some kts' => some (.UnionType kts')
    | none => none
  | .Field e l =>
    match substShiftV applyB normOne squash var val e with
    | some e' => some (.Field e' l)
    | none => none
  | .Projection e ls =>
    match substShiftV applyB normOne squash var val e with
    | some e' => some (.Projection e' ls)
    | none => none
  | .Merge h u t =>
    match substShiftV applyB normOne squash var val h,
        substShiftV applyB normOne squash var val u,
        substShiftVOpt applyB normOne squash var val t with
    | some h', some u', some t' => some (.Merge h' u' t')
    | _, _, _ => none
  | .ToMap e t =>
    match substShiftV applyB normOne squash var val e,
        substShiftVOpt applyB normOne squash var val t with
    | some e', some t' => some (.ToMap e' t')
    | _, _ => none
  | .Assert e =>
    match substShiftV applyB normOne squash var val e with
    | some e' => some (.Assert e')
    | none => none
  | .Embed e =>
    match substShiftV applyB normOne squash var val e with
    | some e' => some (.Embed e')
    | none => none

end

/-- Modelled from the spec: the `Natural/subtract` rule of `apply_builtin`
in the missing `phase/normalize.rs` (the ValueF-based normalizer; only its
callers, e.g. `core/valuef.rs`, and the builtin's type schema in
`semantics/phase/typecheck.rs` are under the provided sources).  Per the
spec table, `Natural/subtract a b` with two natural literals reduces to
`max(b - a, 0)`; any argument list not matching a reduction pattern is
returned as the stuck `AppliedBuiltin(b, args)`.  Rules for the other
builtins are orthogonal to the claims settled here and are left stuck. -/
def applyBuiltinModel (b : Builtin) (args : List ValueF) : ValueF :=
  match b, args with
  | .NaturalSubtract, [.NaturalLit a, .NaturalLit c] =>
    .NaturalLit (((c : Int) - (a : Int)).toNat)
  | _, _ => .AppliedBuiltin b args

/-! ### The `Merge` rule of the two later typecheckers (claim C2)

Both `type_last_layer` implementations inspect the (already inferred and
WHNF-normalized) types of the two `Merge` arguments, so the embedding takes
those two type values directly.  The `ensure_equal!`/`!=` checks compare
types up to α/β-conversion, implemented by the missing
`core/value.rs`/`semantics` equality; the checkers below are parametric in
that conversion test `eqv`. -/

/-- Lookup in a label-keyed `HashMap` modelled as an association list with
unique labels. -/
def lookupP {β : Type} (kvs : List (Label × β)) (l : Label) : Option β :=
  (kvs.find? (fun p => p.1 = l)).map Prod.snd

/-- `Type::over_binder(x)` (missing `core/var.rs`): extract a type from
under the binder `x` by shifting with `-1`; fails exactly when `x` occurs
free. -/
def overBinder (x : Label) (tb : ValueF) : Option ValueF :=
  shiftV (-1) ⟨x, 0⟩ tb

/-- The handler loop of the `Merge` case in `phase/typecheck.rs` lines
670-719, threading the inferred common return type. -/
def mergeHandlersPhase (eqv : ValueF → ValueF → Bool)
    (variants : List (Label × Option ValueF)) :
    List (Label × ValueF) → Option ValueF → Except TypeMessage (Option ValueF)
  | [], inferred => .ok inferred
  | (x, handler) :: rest, inferred =>
    let hrt : Except TypeMessage ValueF :=
      match lookupP variants x with
      | some (some variantType) =>
        -- Union alternative with type
        match handler with
        | .Pi xh tx tb =>
          if eqv variantType tx then
            match overBinder xh tb with
            | some t => .ok t
            | none => .error .MergeHandlerReturnTypeMustNotBeDependent
          else .error .TypeMismatch
        | _ => .error .NotAFunction
      | some none => .ok handler
      | none => .error .MergeHandlerMissingVariant
    match hrt with
    | .error m => .error m
    | .ok t =>
      match inferred with
      | none => mergeHandlersPhase eqv variants rest (some t)
      | some t0 =>
        if eqv t0 t then mergeHandlersPhase eqv variants rest (some t0)
        else .error .MergeHandlerTypeMismatch

/-- The `Merge` case of `type_last_layer` in `phase/typecheck.rs` lines
658-736: the first argument's type must be a record type
(`Merge1ArgMustBeRecord`), the second's must be a union type — and nothing
else (`Merge2ArgMustBeUnion`); after checking the handlers, every variant
must be handled, and the result type is the annotation when present
(checked against the inferred type), otherwise the inferred type. -/
def mergeTypePhase (eqv : ValueF → ValueF → Bool)
    (recordTy unionTy : ValueF) (annot : Option ValueF) :
    Except TypeMessage ValueF :=
  match recordTy with
  | .RecordType handlers =>
    match unionTy with
    | .UnionType variants =>
      match mergeHandlersPhase eqv variants handlers none with
      | .error m => .error m
      | .ok inferred =>
        if variants.all (fun p => (lookupP handlers p.1).isSome) then
          match inferred, annot with
          | some t1, some t2 =>
            if eqv t1 t2 then .ok t2 else .error .MergeAnnotMismatch
          | some t, none => .ok t
          | none, some t => .ok t
          | none, none => .error .MergeEmptyNeedsAnnot
        else .error .MergeVariantMissingHandler
    | _ => .error .Merge2ArgMustBeUnion
  | _ => .error .Merge1ArgMustBeRecord

/-- The handler loop of the `Merge` case in `semantics/phase/typecheck.rs`
lines 679-716.  `over_binder()` there works on the alpha-normalized binder;
it is modelled with the Pi's binder label. -/
def mergeHandlersSemantics (eqv : ValueF → ValueF → Bool)
    (variants : List (Label × Option ValueF)) :
    List (Label × ValueF) → Option ValueF → Except TypeMessage (Option ValueF)
  | [], inferred => .ok inferred
  | (x, handlerType) :: rest, inferred =>
    let hrt : Except TypeMessage ValueF :=
      match lookupP variants x with
      | some (some variantType) =>
        -- Union alternative with type
        match handlerType with
        | .Pi xh tx tb =>
          if eqv variantType tx then
            match overBinder xh tb with
            | some t => .ok t
            | none => .error .MergeHandlerReturnTypeMustNotBeDependent
          else .error .TypeMismatch
        | _ => .error .NotAFunction
      | some none => .ok handlerType
      | none => .error .MergeHandlerMissingVariant
    match hrt with
    | .error m => .error m
    | .ok t =>
      match inferred with
      | none => mergeHandlersSemantics eqv variants rest (some t)
      | some t0 =>
        if eqv t0 t then mergeHandlersSemantics eqv variants rest (some t0)
        else .error .MergeHandlerTypeMismatch

/-- The `Merge` case of `type_last_layer` in `semantics/phase/typecheck.rs`
lines 653-733: the second argument's type may be a union type or an
`Optional t` — the latter is treated as the two-variant union
`{None, Some t}` — and anything else is `Merge2ArgMustBeUnionOrOptional`;
with an annotation the result is the inferred type `t1` after checking it
against the annotation. -/
def mergeTypeSemantics (eqv : ValueF → ValueF → Bool)
    (recordTy unionTy : ValueF) (annot : Option ValueF) :
    Except TypeMessage ValueF :=
  match recordTy with
  | .RecordType handlers =>
    let variantsD : Except TypeMessage (List (Label × Option ValueF)) :=
      match unionTy with
      | .UnionType kts => .ok kts
      | .AppliedBuiltin .Optional [ty] =>
        .ok [("None", none), ("Some", some ty)]
      | _ => .error .Merge2ArgMustBeUnionOrOptional
    match variantsD with
    | .error m => .error m
    | .ok variants =>
      match mergeHandlersSemantics eqv variants handlers none with
      | .error m => .error m
      | .ok inferred =>
        if variants.all (fun p => (lookupP handlers p.1).isSome) then
          match inferred, annot with
          | some t1, some t2 =>
            if eqv t1 t2 then .ok t1 else .error .MergeAnnotMismatch
          | some t, none => .ok t
          | none, some t => .ok t
          | none, none => .error .MergeEmptyNeedsAnnot
        else .error .MergeVariantMissingHandler
  | _ => .error .Merge1ArgMustBeRecord

/-! ### "No capture" for the shift round-trip (claim C8)

The spec qualifies the shift round-trip with "when no capture would occur".
For shifting, the precise reading is that no free occurrence of the tracked
variable crosses the shift threshold: every occurrence `V(x, n)` with
`n ≥ k` (relative to the tracked `V(x, k)`, threshold adjusted under
binders) must satisfy `n + Δ ≥ k`.  When an occurrence dropped below the
threshold, the reverse shift would no longer recognise it.  For `Δ ≥ 0`
the condition always holds. -/

/-- The threshold-crossing condition at a single variable occurrence. -/
def varNoCross (d : Int) (var v : V) : Bool :=
  if v.label = var.label ∧ var.idx ≤ v.idx then
    (var.idx : Int) ≤ (v.idx : Int) + d
  else true

mutual

/-- No free occurrence of the tracked variable crosses the shift threshold
anywhere in the value. -/
def noCaptureV (d : Int) (var : V) : ValueF → Bool
  | .Lam x t e => noCaptureV d var t && noCaptureV d (var.underBinder x) e
  | .Pi x t e => noCaptureV d var t && noCaptureV d (var.underBinder x) e
  | .AppliedBuiltin _ args => noCaptureVList d var args
  | .Var v => varNoCross d var v
  | .Const _ => true
  | .BoolLit _ => true
  | .NaturalLit _ => true
  | .IntegerLit _ => true
  | .DoubleLit _ => true
  | .EmptyOptionalLit t => noCaptureV d var t
  | .NEOptionalLit v => noCaptureV d var v
  | .EmptyListLit t => noCaptureV d var t
  | .NEListLit elts => noCaptureVList d var elts
  | .RecordLit kvs => noCaptureVPairs d var kvs
  | .RecordType kts => noCaptureVPairs d var kts
  | .UnionType kts => noCaptureVOptPairs d var kts
  | .UnionConstructor _ kts => noCaptureVOptPairs d var kts
  | .UnionLit _ v kts => noCaptureV d var v && noCaptureVOptPairs d var kts
  | .TextLit elts => noCaptureVText d var elts
  | .Equivalence x y => noCaptureV d var x && noCaptureV d var y
  | .PartialExpr e => noCaptureVExprF d var e

/-- `noCaptureV` over value lists. -/
def noCaptureVList (d : Int) (var : V) : List ValueF → Bool
  | [] => true
  | x :: xs => noCaptureV d var x && noCaptureVList d var xs

/-- `noCaptureV` over record maps. -/
def noCaptureVPairs (d : Int) (var : V) : List (Label × ValueF) → Bool
  | [] => true
  | (_, x) :: xs => noCaptureV d var x && noCaptureVPairs d var xs

/-- `noCaptureV` over union maps. -/
def noCaptureVOptPairs (d : Int) (var : V) :
    List (Label × Option ValueF) → Bool
  | [] => true
  | (_, none) :: xs => noCaptureVOptPairs d var xs
  | (_, some x) :: xs => noCaptureV d var x && noCaptureVOptPairs d var xs

/-- `noCaptureV` over interpolated-text segments. -/
def noCaptureVText (d : Int) (var : V) :
    List InterpolatedTextContents → Bool
  | [] => true
  | .Text _ :: xs => noCaptureVText d var xs
  | .Expr x :: xs => noCaptureV d var x && noCaptureVText d var xs

/-- `noCaptureV` over text chunks inside a `PartialExpr`. -/
def noCaptureVChunks (d : Int) (var : V) : List (ValueF × String) → Bool
  | [] => true
  | (x, _) :: xs => noCaptureV d var x && noCaptureVChunks d var xs

/-- `noCaptureV` over optional subvalues. -/
def noCaptureVOpt (d : Int) (var : V) : Option ValueF → Bool
  | none => true
  | some x => noCaptureV d var x

/-- `noCaptureV` over one `PartialExpr` layer. -/
def noCaptureVExprF (d : Int) (var : V) : ExprFV → Bool
  | .Const _ => true
  | .Var _ => true
  | .Lam x t b => noCaptureV d var t && noCaptureV d (var.underBinder x) b
  | .Pi x t b => noCaptureV d var t && noCaptureV d (var.underBinder x) b
  | .App f a => noCaptureV d var f && noCaptureV d var a
  | .Let x t r b =>
    noCaptureVOpt d var t && noCaptureV d var r
      && noCaptureV d (var.underBinder x) b
  | .Annot e t => noCaptureV d var e && noCaptureV d var t
  | .Builtin _ => true
  | .BoolLit _ => true
  | .NaturalLit _ => true
  | .IntegerLit _ => true
  | .DoubleLit _ => true
  | .TextLit _ chunks => noCaptureVChunks d var chunks
  | .BinOp _ l r => noCaptureV d var l && noCaptureV d var r
  | .BoolIf c t e =>
    noCaptureV d var c && noCaptureV d var t && noCaptureV d var e
  | .EmptyListLit t => noCaptureV d var t
  | .NEListLit xs => noCaptureVList d var xs
  | .SomeLit e => noCaptureV d var e
  | .RecordType kts => noCaptureVPairs d var kts
  | .RecordLit kvs => noCaptureVPairs d var kvs
  | .UnionType kts => noCaptureVOptPairs d var kts
  | .Field e _ => noCaptureV d var e
  | .Projection e _ => noCaptureV d var e
  | .Merge h u t =>
    noCaptureV d var h && noCaptureV d var u && noCaptureVOpt d var t
  | .ToMap e t => noCaptureV d var e && noCaptureVOpt d var t
  | .Assert e => noCaptureV d var e
  | .Embed e => noCaptureV d var e

end

/-! ### Discriminators and concrete inputs used in the theorems -/

deriving instance DecidableEq for Except

/-- Head test: is this expression a `Var`? -/
def Expr.isVar : Expr → Bool
  | .Var _ => true
  | _ => false

/-- Head test: is this value a record type? -/
def ValueF.isRecordTypeV : ValueF → Bool
  | .RecordType _ => true
  | _ => false

/-- Head test: is this value a union type? -/
def ValueF.isUnionTypeV : ValueF → Bool
  | .UnionType _ => true
  | _ => false

/-- Head test: is this value `Optional` applied to exactly one type? -/
def ValueF.isOptionalTypeV : ValueF → Bool
  | .AppliedBuiltin .Optional [_] => true
  | _ => false

/-- Head test: is this value a natural literal? -/
def ValueF.isNaturalLitV : ValueF → Bool
  | .NaturalLit _ => true
  | _ => false

/-- A conversion test that accepts everything; the dispatch behaviour of the
`Merge` rules does not depend on the conversion test. -/
def eqvTrue : ValueF → ValueF → Bool := fun _ _ => true

/-- The value-level type `Natural` (a builtin applied to no arguments). -/
def natV : ValueF := .AppliedBuiltin .Natural []

/-- A record of handlers for `merge`, typed against `Optional Natural`:
`{ None : Natural, Some : ∀(x : Natural) → Natural }`. -/
def mergeRecordEx : ValueF :=
  .RecordType [("None", natV), ("Some", .Pi "x" natV natV)]

/-- The type `Optional Natural` as a value. -/
def mergeOptionalEx : ValueF := .AppliedBuiltin .Optional [natV]

/-- The expression-level builtin `Natural`. -/
def natB : Expr := .Builtin .Natural

/-- `List/fold Natural (List/build Natural g)` for a stuck variable `g`:
the claimed fold∘build fusion redex. -/
def c4Input : Expr :=
  .App (.Builtin .ListFold)
    [natB, .App (.Builtin .ListBuild) [natB, .Var ⟨"g", 0⟩]]

/-- The normal form the normalizer actually produces for `c4Input`: the
build η-expands around the stuck `g` and the outer partial `List/fold`
application stays stuck. -/
def c4Stuck : Expr :=
  .App (.Builtin .ListFold)
    [natB,
     .App (.Var ⟨"g", 0⟩)
       [.App (.Builtin .List) [natB],
        .Lam "x" natB
          (.Lam "xs" (.App (.Builtin .List) [natB])
            (.BinOp .ListAppend (.NEListLit [.Var ⟨"x", 0⟩])
              (.Var ⟨"xs", 0⟩))),
        .EmptyListLit natB]]

/-- `List/build Natural (List/fold Natural h)` for a stuck variable `h`:
the build∘fold fusion redex the code does implement. -/
def c4FusionInput : Expr :=
  .App (.Builtin .ListBuild)
    [natB, .App (.Builtin .ListFold) [natB, .Var ⟨"h", 0⟩]]

/-- `λ(x : Type) → x x`. -/
def omegaFun : Expr :=
  .Lam "x" (.Const .type) (.App (.Var ⟨"x", 0⟩) [.Var ⟨"x", 0⟩])

/-- `Ω = (λ(x : Type) → x x) (λ(x : Type) → x x)`: an ill-typed expression
on which `normalize_ref` recurses forever. -/
def omegaLoop : Expr := .App omegaFun [omegaFun]

/-- The immediate subexpressions of an expression, in the order
`mapChildren` visits them; used to reason uniformly about the
children-normalization pass of `normalize_ref`. -/
def children : Expr → List Expr
  | .Const _ => []
  | .Var _ => []
  | .Lam _ t b => [t, b]
  | .Pi _ t b => [t, b]
  | .App f args => f :: args
  | .Let _ t r b => t.toList ++ [r, b]
  | .Annot e t => [e, t]
  | .Builtin _ => []
  | .BoolLit _ => []
  | .NaturalLit _ => []
  | .IntegerLit _ => []
  | .DoubleLit _ => []
  | .TextLit _ chunks => chunks.map Prod.fst
  | .BinOp _ l r => [l, r]
  | .BoolIf c t e => [c, t, e]
  | .EmptyListLit t => [t]
  | .NEListLit xs => xs
  | .EmptyOptionalLit t => [t]
  | .NEOptionalLit x => [x]
  | .RecordType kts => kts.map Prod.snd
  | .RecordLit kvs => kvs.map Prod.snd
  | .UnionType kts => kts.map Prod.snd
  | .UnionLit _ x kts => x :: kts.map Prod.snd
  | .Merge h u t => [h, u] ++ t.toList
  | .Field e _ => [e]
  | .Projection e _ => [e]

/-- `v` is a fixpoint of the (fuel-bounded) normalizer: renormalizing it
with enough fuel returns it unchanged.  `normalize` outputs satisfy this,
which is the idempotence of normalization. -/
def FixE (v : Expr) : Prop := ∃ n, normalizeRef n v = some v

/-! ## Theorems -/

/-- C1 (counterexample): the claim states that for the dependent
combination `(Type, Kind)` typechecking a Pi fails with `NoDependentTypes`;
but in `semantics/phase/typecheck.rs` the Pi rule succeeds there, computing
the universe `Kind`, and returns no error at all. -/
theorem c1_counterexample :
    piSortSemantics Const.type Const.kind = Except.ok Const.kind ∧
    decide (piSortSemantics Const.type Const.kind
      = Except.error TypeMessage.NoDependentTypes) = false := by
  exact ⟨rfl, rfl⟩

/-- C1 (amended): in `typecheck.rs` and `phase/typecheck.rs` the universe of
a Pi is computed exactly by the claimed `function_check` table, with every
other combination rejected as `NoDependentTypes`; in
`semantics/phase/typecheck.rs` `function_check` is total — `Type` when the
codomain universe is `Type` and otherwise the larger of the two universes —
so the combinations `(Type, Kind)`, `(Type, Sort)`, `(Kind, Sort)` succeed
there and `NoDependentTypes` is never raised. -/
theorem c1_amended :
    (∀ a b : Const, piSortOld a b = functionCheckSpec a b) ∧
    (∀ a b : Const, piSortPhase a b = functionCheckSpec a b) ∧
    (∀ a b : Const, piSortSemantics a b
      = .ok (if b = Const.type then Const.type else Const.cmax a b)) := by
  refine ⟨?_, ?_, ?_⟩ <;> intro a b <;> cases a <;> cases b <;> rfl

/-- C3 (counterexample): a record type whose two field types live in the
different universes `Type` and `Kind` is accepted by
`semantics/phase/typecheck.rs`'s `tck_record_type`, which infers the larger
universe `Kind`; the claim states such mixing is rejected. -/
theorem c3_counterexample :
    tckRecordTypeSemantics [("x", some Const.type), ("y", some Const.kind)]
      = Except.ok Const.kind ∧
    decide (tckRecordTypeSemantics
        [("x", some Const.type), ("y", some Const.kind)]
      = Except.error TypeMessage.InvalidFieldType) = false := by
  exact ⟨by decide, by decide⟩

/-- Invariant of the `phase/typecheck.rs` record-type loop: on success, the
result universe is the one every field carries, and the accumulator was
either unset or already equal to it. -/
theorem tckRecordTypePhaseGo_ok (seen : List Label) (k0 : Option Const)
    (kts : List (Label × Option Const)) (k : Const)
    (h : tckRecordTypePhaseGo seen k0 kts = .ok k) :
    (∀ p ∈ kts, p.2 = some k) ∧ (k0 = none ∨ k0 = some k) := by
  induction kts generalizing seen k0 with
  | nil =>
    refine ⟨by intro p hp; exact absurd hp (List.not_mem_nil p), ?_⟩
    cases k0 with
    | none => exact Or.inl rfl
    | some c =>
      right
      simp only [tckRecordTypePhaseGo, Option.getD] at h
      cases h
      rfl
  | cons p rest ih =>
    obtain ⟨x, tc⟩ := p
    cases k0 with
    | none =>
      cases tc with
      | none => simp [tckRecordTypePhaseGo] at h
      | some k2 =>
        simp only [tckRecordTypePhaseGo] at h
        split at h
        · exact absurd h (by simp)
        · obtain ⟨hrest, hacc⟩ := ih (x :: seen) (some k2) h
          rcases hacc with hacc | hacc
          · exact absurd hacc (by simp)
          · obtain rfl : k2 = k := by injection hacc
            refine ⟨?_, Or.inl rfl⟩
            intro q hq
            rcases List.mem_cons.mp hq with rfl | hq
            · rfl
            · exact hrest q hq
    | some k1 =>
      cases tc with
      | none => simp [tckRecordTypePhaseGo] at h
      | some k2 =>
        simp only [tckRecordTypePhaseGo] at h
        split at h
        case isTrue heq =>
          subst heq
          split at h
          · exact absurd h (by simp)
          · obtain ⟨hrest, hacc⟩ := ih (x :: seen) (some k1) h
            rcases hacc with hacc | hacc
            · exact absurd hacc (by simp)
            · obtain rfl : k1 = k := by injection hacc
              refine ⟨?_, Or.inr rfl⟩
              intro q hq
              rcases List.mem_cons.mp hq with rfl | hq
              · rfl
              · exact hrest q hq
        case isFalse => exact absurd h (by simp)

/-- Invariant of the `semantics/phase/typecheck.rs` record-type loop: when
all fields have a universe and labels are fresh and distinct, the loop
succeeds with the max-fold of the universes. -/
theorem tckRecordTypeSemanticsGo_ok (kts : List (Label × Option Const))
    (seen : List Label) (k0 : Const)
    (hsome : ∀ p ∈ kts, p.2.isSome)
    (hnodup : (kts.map Prod.fst).Nodup)
    (hfresh : ∀ p ∈ kts, p.1 ∉ seen) :
    tckRecordTypeSemanticsGo seen k0 kts
      = .ok (kts.foldl (fun k p => Const.cmax k (p.2.getD Const.type)) k0) := by
  induction kts generalizing seen k0 with
  | nil => rfl
  | cons p rest ih =>
    obtain ⟨x, tc⟩ := p
    cases tc with
    | none => exact absurd (hsome (x, none) (List.mem_cons_self _ _)) (by simp)
    | some k2 =>
      have hx : x ∉ seen := hfresh (x, some k2) (List.mem_cons_self _ _)
      have hnd := List.nodup_cons.mp
        (show (x :: rest.map Prod.fst).Nodup by simpa using hnodup)
      simp only [tckRecordTypeSemanticsGo, if_neg hx]
      rw [ih (x :: seen) (Const.cmax k0 k2)
        (fun q hq => hsome q (List.mem_cons_of_mem _ hq))
        hnd.2
        ?_]
      · simp
      · intro q hq
        simp only [List.mem_cons]
        push_neg
        refine ⟨?_, hfresh q (List.mem_cons_of_mem _ hq)⟩
        intro hqx
        exact hnd.1 (hqx ▸ List.mem_map_of_mem Prod.fst hq)

/-- C3 (amended): in `phase/typecheck.rs`, `tck_record_type` indeed demands
that every field type lie in one common universe `k` and infers `k` (`Type`
when empty); in `semantics/phase/typecheck.rs` it instead accepts mixed
universes and infers the maximum of the field universes, starting from
`Type`. -/
theorem c3_amended :
    (∀ (kts : List (Label × Option Const)) (k : Const),
      tckRecordTypePhase kts = .ok k → ∀ p ∈ kts, p.2 = some k) ∧
    (∀ kts : List (Label × Option Const),
      (kts.map Prod.fst).Nodup → (∀ p ∈ kts, p.2.isSome) →
      tckRecordTypeSemantics kts
        = .ok (kts.foldl (fun k p => Const.cmax k (p.2.getD Const.type))
            Const.type)) := by
  constructor
  · intro kts k h
    exact (tckRecordTypePhaseGo_ok [] none kts k h).1
  · intro kts h1 h2
    exact tckRecordTypeSemanticsGo_ok kts [] Const.type h2 h1
      (by intro p _; exact List.not_mem_nil p.1)

/-- C3 (witness for the amended theorem): the mixed-universe record type
`{ a : Type-level, b : Kind-level }` is accepted by the `semantics` checker
with inferred universe `cmax (cmax Type Type) Kind = Kind`. -/
theorem c3_amended_witness :
    tckRecordTypeSemantics [("a", some Const.type), ("b", some Const.kind)]
      = .ok (([("a", some Const.type), ("b", some Const.kind)]
          : List (Label × Option Const)).foldl
            (fun k p => Const.cmax k (p.2.getD Const.type)) Const.type) :=
  c3_amended.2 [("a", some Const.type), ("b", some Const.kind)]
    (by decide) (by decide)

/-- C5: per the spec's reduction table (the `apply_builtin` implementing it
is the missing `phase/normalize.rs`), `Natural/subtract` applied to two
natural literals `a` and `b` reduces to the literal `max(b - a, 0)`, and in
particular does not remain a stuck `AppliedBuiltin`. -/
theorem c5_theorem (a b : Nat) :
    applyBuiltinModel .NaturalSubtract [.NaturalLit a, .NaturalLit b]
        = .NaturalLit (max ((b : Int) - (a : Int)) 0).toNat ∧
    (applyBuiltinModel .NaturalSubtract
        [.NaturalLit a, .NaturalLit b]).isNaturalLitV = true := by
  have h : ((b : Int) - (a : Int)).toNat
      = (max ((b : Int) - (a : Int)) 0).toNat := by
    rcases le_or_lt ((b : Int) - (a : Int)) 0 with h | h
    · omega
    · omega
  constructor
  · show ValueF.NaturalLit ((b : Int) - (a : Int)).toNat = _
    rw [h]
  · rfl

/-- C2 (counterexample): a well-formed `merge` whose second argument has
type `Optional Natural` — accepted by `semantics/phase/typecheck.rs` with
result `Natural` — is rejected by `phase/typecheck.rs`, and with the error
`Merge2ArgMustBeUnion`, not `Merge2ArgMustBeUnionOrOptional`: that checker
supports no optionals in `merge` at all. -/
theorem c2_counterexample :
    mergeTypePhase eqvTrue mergeRecordEx mergeOptionalEx none
      = .error .Merge2ArgMustBeUnion ∧
    mergeTypeSemantics eqvTrue mergeRecordEx mergeOptionalEx none
      = .ok natV ∧
    decide (TypeMessage.Merge2ArgMustBeUnion
      = TypeMessage.Merge2ArgMustBeUnionOrOptional) = false := by
  exact ⟨rfl, rfl, rfl⟩

/-- C2 (amended): in `semantics/phase/typecheck.rs`, `Merge` type inference
succeeds only when the first argument's type is a record type and the
second's is a union type or an `Optional t` (treated as the two-variant
union with a bare `None` and a `Some` carrying `t`), failing with
`Merge2ArgMustBeUnionOrOptional` otherwise; in `phase/typecheck.rs` only a
union type is accepted for the second argument, and anything else —
including an optional — fails with `Merge2ArgMustBeUnion`.  All parts hold
for every conversion test `eqv`. -/
theorem c2_amended :
    (∀ (eqv : ValueF → ValueF → Bool) (rt ut : ValueF)
        (annot : Option ValueF) (r : ValueF),
      mergeTypeSemantics eqv rt ut annot = .ok r →
      rt.isRecordTypeV = true ∧
        (ut.isUnionTypeV = true ∨ ut.isOptionalTypeV = true)) ∧
    (∀ (eqv : ValueF → ValueF → Bool) (rt ut : ValueF)
        (annot : Option ValueF),
      rt.isRecordTypeV = true → ut.isUnionTypeV = false →
      ut.isOptionalTypeV = false →
      mergeTypeSemantics eqv rt ut annot
        = .error .Merge2ArgMustBeUnionOrOptional) ∧
    (∀ (eqv : ValueF → ValueF → Bool) (rt ut : ValueF)
        (annot : Option ValueF) (r : ValueF),
      mergeTypePhase eqv rt ut annot = .ok r →
      rt.isRecordTypeV = true ∧ ut.isUnionTypeV = true) ∧
    (∀ (eqv : ValueF → ValueF → Bool) (rt ut : ValueF)
        (annot : Option ValueF),
      rt.isRecordTypeV = true → ut.isUnionTypeV = false →
      mergeTypePhase eqv rt ut annot = .error .Merge2ArgMustBeUnion) := by
  refine ⟨?_, ?_, ?_, ?_⟩
  · intro eqv rt ut annot r h
    simp only [mergeTypeSemantics] at h
    split at h
    · refine ⟨rfl, ?_⟩
      split at h
      · exact absurd h (by simp)
      · rename_i variants heq
        split at heq
        · exact Or.inl rfl
        · exact Or.inr rfl
        · exact absurd heq (by simp)
    · exact absurd h (by simp)
  · intro eqv rt ut annot h1 h2 h3
    cases rt <;> try exact Bool.noConfusion h1
    simp only [mergeTypeSemantics]
    cases ut <;> try rfl
    case UnionType kts => exact absurd h2 (by simp [ValueF.isUnionTypeV])
    case AppliedBuiltin b args =>
      cases b <;> try rfl
      cases args with
      | nil => rfl
      | cons t rest =>
        cases rest with
        | nil => exact absurd h3 (by simp [ValueF.isOptionalTypeV])
        | cons u rest2 => rfl
  · intro eqv rt ut annot r h
    simp only [mergeTypePhase] at h
    split at h
    · split at h
      · exact ⟨rfl, rfl⟩
      · exact absurd h (by simp)
    · exact absurd h (by simp)
  · intro eqv rt ut annot h1 h2
    cases rt <;> try exact Bool.noConfusion h1
    cases ut <;> try rfl
    case UnionType kts => exact absurd h2 (by simp [ValueF.isUnionTypeV])

/-- C2 (witness for the amended theorem): at the concrete inputs of the
counterexample — handlers record and a boolean (neither union nor optional)
second-argument type — the semantics checker fails with
`Merge2ArgMustBeUnionOrOptional`, by the amended theorem. -/
theorem c2_amended_witness :
    mergeTypeSemantics eqvTrue mergeRecordEx (.BoolLit true) none
      = .error .Merge2ArgMustBeUnionOrOptional :=
  c2_amended.2.1 eqvTrue mergeRecordEx (.BoolLit true) none rfl rfl rfl

/-- The index decrement applied to a non-matching variable in the `Var`
branch of `subst_shift` always succeeds: a non-matching occurrence is
either below the threshold (left untouched) or strictly above it (so the
decrement stays non-negative). -/
theorem varShift_neg_one_isSome (var v : V) (hne : v ≠ var) :
    (varShift (-1) var v).isSome = true := by
  unfold varShift
  split
  · rename_i hc
    obtain ⟨hl, hi⟩ := hc
    have hlt : var.idx < v.idx := by
      rcases lt_or_eq_of_le hi with h | h
      · exact h
      · exact absurd (by cases v; cases var; simp_all) hne
    simp only
    split
    · rename_i hneg
      exfalso
      omega
    · rfl
  · rfl

mutual

/-- `subst_shift` on a `ValueF` never takes the panicking branch, for any
choice of the re-normalization helpers. -/
theorem substShiftV_isSome (applyB : Builtin → List ValueF → ValueF)
    (normOne : ExprFV → ValueF)
    (squash : List InterpolatedTextContents → List InterpolatedTextContents)
    (var : V) (val : ValueF) :
    (v : ValueF) → (substShiftV applyB normOne squash var val v).isSome = true
  | .AppliedBuiltin b args => by
    have h1 := substShiftVList_isSome applyB normOne squash var val args
    simp only [substShiftV]
    obtain ⟨a', ha⟩ := Option.isSome_iff_exists.mp h1
    rw [ha]
    rfl
  | .PartialExpr e => by
    have h1 := substShiftVExprF_isSome applyB normOne squash var val e
    simp only [substShiftV]
    obtain ⟨a', ha⟩ := Option.isSome_iff_exists.mp h1
    rw [ha]
    rfl
  | .TextLit elts => by
    have h1 := substShiftVText_isSome applyB normOne squash var val elts
    simp only [substShiftV]
    obtain ⟨a', ha⟩ := Option.isSome_iff_exists.mp h1
    rw [ha]
    rfl
  | .Lam x t e => by
    have h1 := substShiftV_isSome applyB normOne squash var val t
    have h2 := substShiftV_isSome applyB normOne squash (var.underBinder x)
      (valUnderBinder x val) e
    simp only [substShiftV]
    obtain ⟨a', ha⟩ := Option.isSome_iff_exists.mp h1
    obtain ⟨b', hb⟩ := Option.isSome_iff_exists.mp h2
    rw [ha, hb]
    rfl
  | .Pi x t e => by
    have h1 := substShiftV_isSome applyB normOne squash var val t
    have h2 := substShiftV_isSome applyB normOne squash (var.underBinder x)
      (valUnderBinder x val) e
    simp only [substShiftV]
    obtain ⟨a', ha⟩ := Option.isSome_iff_exists.mp h1
    obtain ⟨b', hb⟩ := Option.isSome_iff_exists.mp h2
    rw [ha, hb]
    rfl
  | .Var v => by
    simp only [substShiftV]
    split
    · rfl
    · rename_i hne
      obtain ⟨v', hv⟩ :=
        Option.isSome_iff_exists.mp (varShift_neg_one_isSome var v hne)
      rw [hv]
      rfl
  | .Const c => by simp [substShiftV]
  | .BoolLit b => by simp [substShiftV]
  | .NaturalLit n => by simp [substShiftV]
  | .IntegerLit n => by simp [substShiftV]
  | .DoubleLit d => by simp [substShiftV]
  | .EmptyOptionalLit t => by
    have h1 := substShiftV_isSome applyB normOne squash var val t
    simp only [substShiftV]
    obtain ⟨a', ha⟩ := Option.isSome_iff_exists.mp h1
    rw [ha]
    rfl
  | .NEOptionalLit v => by
    have h1 := substShiftV_isSome applyB normOne squash var val v
    simp only [substShiftV]
    obtain ⟨a', ha⟩ := Option.isSome_iff_exists.mp h1
    rw [ha]
    rfl
  | .EmptyListLit t => by
    have h1 := substShiftV_isSome applyB normOne squash var val t
    simp only [substShiftV]
    obtain ⟨a', ha⟩ := Option.isSome_iff_exists.mp h1
    rw [ha]
    rfl
  | .NEListLit elts => by
    have h1 := substShiftVList_isSome applyB normOne squash var val elts
    simp only [substShiftV]
    obtain ⟨a', ha⟩ := Option.isSome_iff_exists.mp h1
    rw [ha]
    rfl
  | .RecordLit kvs => by
    have h1 := substShiftVPairs_isSome applyB normOne squash var val kvs
    simp only [substShiftV]
    obtain ⟨a', ha⟩ := Option.isSome_iff_exists.mp h1
    rw [ha]
    rfl
  | .RecordType kts => by
    have h1 := substShiftVPairs_isSome applyB normOne squash var val kts
    simp only [substShiftV]
    obtain ⟨a', ha⟩ := Option.isSome_iff_exists.mp h1
    rw [ha]
    rfl
  | .UnionType kts => by
    have h1 := substShiftVOptPairs_isSome applyB normOne squash var val kts
    simp only [substShiftV]
    obtain ⟨a', ha⟩ := Option.isSome_iff_exists.mp h1
    rw [ha]
    rfl
  | .UnionConstructor x kts => by
    have h1 := substShiftVOptPairs_isSome applyB normOne squash var val kts
    simp only [substShiftV]
    obtain ⟨a', ha⟩ := Option.isSome_iff_exists.mp h1
    rw [ha]
    rfl
  | .UnionLit x v kts => by
    have h1 := substShiftV_isSome applyB normOne squash var val v
    have h2 := substShiftVOptPairs_isSome applyB normOne squash var val kts
    simp only [substShiftV]
    obtain ⟨a', ha⟩ := Option.isSome_iff_exists.mp h1
    obtain ⟨b', hb⟩ := Option.isSome_iff_exists.mp h2
    rw [ha, hb]
    rfl
  | .Equivalence x y => by
    have h1 := substShiftV_isSome applyB normOne squash var val x
    have h2 := substShiftV_isSome applyB normOne squash var val y
    simp only [substShiftV]
    obtain ⟨a', ha⟩ := Option.isSome_iff_exists.mp h1
    obtain ⟨b', hb⟩ := Option.isSome_iff_exists.mp h2
    rw [ha, hb]
    rfl

/-- Totality of `subst_shift` over value lists. -/
theorem substShiftVList_isSome (applyB : Builtin → List ValueF → ValueF)
    (normOne : ExprFV → ValueF)
    (squash : List InterpolatedTextContents → List InterpolatedTextContents)
    (var : V) (val : ValueF) :
    (xs : List ValueF) →
      (substShiftVList applyB normOne squash var val xs).isSome = true
  | [] => by simp [substShiftVList]
  | x :: xs => by
    have h1 := substShiftV_isSome applyB normOne squash var val x
    have h2 := substShiftVList_isSome applyB normOne squash var val xs
    simp only [substShiftVList]
    obtain ⟨a', ha⟩ := Option.isSome_iff_exists.mp h1
    obtain ⟨b', hb⟩ := Option.isSome_iff_exists.mp h2
    rw [ha, hb]
    rfl

/-- Totality of `subst_shift` over record maps. -/
theorem substShiftVPairs_isSome (applyB : Builtin → List ValueF → ValueF)
    (normOne : ExprFV → ValueF)
    (squash : List InterpolatedTextContents → List InterpolatedTextContents)
    (var : V) (val : ValueF) :
    (xs : List (Label × ValueF)) →
      (substShiftVPairs applyB normOne squash var val xs).isSome = true
  | [] => by simp [substShiftVPairs]
  | (l, x) :: xs => by
    have h1 := substShiftV_isSome applyB normOne squash var val x
    have h2 := substShiftVPairs_isSome applyB normOne squash var val xs
    simp only [substShiftVPairs]
    obtain ⟨a', ha⟩ := Option.isSome_iff_exists.mp h1
    obtain ⟨b', hb⟩ := Option.isSome_iff_exists.mp h2
    rw [ha, hb]
    rfl

/-- Totality of `subst_shift` over union maps. -/
theorem substShiftVOptPairs_isSome (applyB : Builtin → List ValueF → ValueF)
    (normOne : ExprFV → ValueF)
    (squash : List InterpolatedTextContents → List InterpolatedTextContents)
    (var : V) (val : ValueF) :
    (xs : List (Label × Option ValueF)) →
      (substShiftVOptPairs applyB normOne squash var val xs).isSome = true
  | [] => by simp [substShiftVOptPairs]
  | (l, none) :: xs => by
    have h2 := substShiftVOptPairs_isSome applyB normOne squash var val xs
    simp only [substShiftVOptPairs]
    obtain ⟨b', hb⟩ := Option.isSome_iff_exists.mp h2
    rw [hb]
    rfl
  | (l, some x) :: xs => by
    have h1 := substShiftV_isSome applyB normOne squash var val x
    have h2 := substShiftVOptPairs_isSome applyB normOne squash var val xs
    simp only [substShiftVOptPairs]
    obtain ⟨a', ha⟩ := Option.isSome_iff_exists.mp h1
    obtain ⟨b', hb⟩ := Option.isSome_iff_exists.mp h2
    rw [ha, hb]
    rfl

/-- Totality of `subst_shift` over interpolated-text segments. -/
theorem substShiftVText_isSome (applyB : Builtin → List ValueF → ValueF)
    (normOne : ExprFV → ValueF)
    (squash : List InterpolatedTextContents → List InterpolatedTextContents)
    (var : V) (val : ValueF) :
    (xs : List InterpolatedTextContents) →
      (substShiftVText applyB normOne squash var val xs).isSome = true
  | [] => by simp [substShiftVText]
  | .Text s :: xs => by
    have h2 := substShiftVText_isSome applyB normOne squash var val xs
    simp only [substShiftVText]
    obtain ⟨b', hb⟩ := Option.isSome_iff_exists.mp h2
    rw [hb]
    rfl
  | .Expr x :: xs => by
    have h1 := substShiftV_isSome applyB normOne squash var val x
    have h2 := substShiftVText_isSome applyB normOne squash var val xs
    simp only [substShiftVText]
    obtain ⟨a', ha⟩ := Option.isSome_iff_exists.mp h1
    obtain ⟨b', hb⟩ := Option.isSome_iff_exists.mp h2
    rw [ha, hb]
    rfl

/-- Totality of `subst_shift` over text chunks in a `PartialExpr`. -/
theorem substShiftVChunks_isSome (applyB : Builtin → List ValueF → ValueF)
    (normOne : ExprFV → ValueF)
    (squash : List InterpolatedTextContents → List InterpolatedTextContents)
    (var : V) (val : ValueF) :
    (xs : List (ValueF × String)) →
      (substShiftVChunks applyB normOne squash var val xs).isSome = true
  | [] => by simp [substShiftVChunks]
  | (x, s) :: xs => by
    have h1 := substShiftV_isSome applyB normOne squash var val x
    have h2 := substShiftVChunks_isSome applyB normOne squash var val xs
    simp only [substShiftVChunks]
    obtain ⟨a', ha⟩ := Option.isSome_iff_exists.mp h1
    obtain ⟨b', hb⟩ := Option.isSome_iff_exists.mp h2
    rw [ha, hb]
    rfl

/-- Totality of `subst_shift` over optional subvalues. -/
theorem substShiftVOpt_isSome (applyB : Builtin → List ValueF → ValueF)
    (normOne : ExprFV → ValueF)
    (squash : List InterpolatedTextContents → List InterpolatedTextContents)
    (var : V) (val : ValueF) :
    (xs : Option ValueF) →
      (substShiftVOpt applyB normOne squash var val xs).isSome = true
  | none => by simp [substShiftVOpt]
  | some x => by
    have h1 := substShiftV_isSome applyB normOne squash var val x
    simp only [substShiftVOpt]
    obtain ⟨a', ha⟩ := Option.isSome_iff_exists.mp h1
    rw [ha]
    rfl

/-- Totality of `subst_shift` over one `PartialExpr` layer. -/
theorem substShiftVExprF_isSome (applyB : Builtin → List ValueF → ValueF)
    (normOne : ExprFV → ValueF)
    (squash : List InterpolatedTextContents → List InterpolatedTextContents)
    (var : V) (val : ValueF) :
    (e : ExprFV) →
      (substShiftVExprF applyB normOne squash var val e).isSome = true
  | .Const c => by simp [substShiftVExprF]
  | .Var v => by simp [substShiftVExprF]
  | .Lam x t b => by
    have h1 := substShiftV_isSome applyB normOne squash var val t
    have h2 := substShiftV_isSome applyB normOne squash (var.underBinder x)
      (valUnderBinder x val) b
    simp only [substShiftVExprF]
    obtain ⟨a', ha⟩ := Option.isSome_iff_exists.mp h1
    obtain ⟨b', hb⟩ := Option.isSome_iff_exists.mp h2
    rw [ha, hb]
    rfl
  | .Pi x t b => by
    have h1 := substShiftV_isSome applyB normOne squash var val t
    have h2 := substShiftV_isSome applyB normOne squash (var.underBinder x)
      (valUnderBinder x val) b
    simp only [substShiftVExprF]
    obtain ⟨a', ha⟩ := Option.isSome_iff_exists.mp h1
    obtain ⟨b', hb⟩ := Option.isSome_iff_exists.mp h2
    rw [ha, hb]
    rfl
  | .App f a => by
    have h1 := substShiftV_isSome applyB normOne squash var val f
    have h2 := substShiftV_isSome applyB normOne squash var val a
    simp only [substShiftVExprF]
    obtain ⟨a', ha⟩ := Option.isSome_iff_exists.mp h1
    obtain ⟨b', hb⟩ := Option.isSome_iff_exists.mp h2
    rw [ha, hb]
    rfl
  | .Let x t r b => by
    have h1 := substShiftVOpt_isSome applyB normOne squash var val t
    have h2 := substShiftV_isSome applyB normOne squash var val r
    have h3 := substShiftV_isSome applyB normOne squash (var.underBinder x)
      (valUnderBinder x val) b
    simp only [substShiftVExprF]
    obtain ⟨a', ha⟩ := Option.isSome_iff_exists.mp h1
    obtain ⟨b', hb⟩ := Option.isSome_iff_exists.mp h2
    obtain ⟨c', hc⟩ := Option.isSome_iff_exists.mp h3
    rw [ha, hb, hc]
    rfl
  | .Annot e t => by
    have h1 := substShiftV_isSome applyB normOne squash var val e
    have h2 := substShiftV_isSome applyB normOne squash var val t
    simp only [substShiftVExprF]
    obtain ⟨a', ha⟩ := Option.isSome_iff_exists.mp h1
    obtain ⟨b', hb⟩ := Option.isSome_iff_exists.mp h2
    rw [ha, hb]
    rfl
  | .Builtin b => by simp [substShiftVExprF]
  | .BoolLit b => by simp [substShiftVExprF]
  | .NaturalLit n => by simp [substShiftVExprF]
  | .IntegerLit n => by simp [substShiftVExprF]
  | .DoubleLit d => by simp [substShiftVExprF]
  | .TextLit h chunks => by
    have h1 := substShiftVChunks_isSome applyB normOne squash var val chunks
    simp only [substShiftVExprF]
    obtain ⟨a', ha⟩ := Option.isSome_iff_exists.mp h1
    rw [ha]
    rfl
  | .BinOp op l r => by
    have h1 := substShiftV_isSome applyB normOne squash var val l
    have h2 := substShiftV_isSome applyB normOne squash var val r
    simp only [substShiftVExprF]
    obtain ⟨a', ha⟩ := Option.isSome_iff_exists.mp h1
    obtain ⟨b', hb⟩ := Option.isSome_iff_exists.mp h2
    rw [ha, hb]
    rfl
  | .BoolIf c t e => by
    have h1 := substShiftV_isSome applyB normOne squash var val c
    have h2 := substShiftV_isSome applyB normOne squash var val t
    have h3 := substShiftV_isSome applyB normOne squash var val e
    simp only [substShiftVExprF]
    obtain ⟨a', ha⟩ := Option.isSome_iff_exists.mp h1
    obtain ⟨b', hb⟩ := Option.isSome_iff_exists.mp h2
    obtain ⟨c', hc⟩ := Option.isSome_iff_exists.mp h3
    rw [ha, hb, hc]
    rfl
  | .EmptyListLit t => by
    have h1 := substShiftV_isSome applyB normOne squash var val t
    simp only [substShiftVExprF]
    obtain ⟨a', ha⟩ := Option.isSome_iff_exists.mp h1
    rw [ha]
    rfl
  | .NEListLit xs => by
    have h1 := substShiftVList_isSome applyB normOne squash var val xs
    simp only [substShiftVExprF]
    obtain ⟨a', ha⟩ := Option.isSome_iff_exists.mp h1
    rw [ha]
    rfl
  | .SomeLit e => by
    have h1 := substShiftV_isSome applyB normOne squash var val e
    simp only [substShiftVExprF]
    obtain ⟨a', ha⟩ := Option.isSome_iff_exists.mp h1
    rw [ha]
    rfl
  | .RecordType kts => by
    have h1 := substShiftVPairs_isSome applyB normOne squash var val kts
    simp only [substShiftVExprF]
    obtain ⟨a', ha⟩ := Option.isSome_iff_exists.mp h1
    rw [ha]
    rfl
  | .RecordLit kvs => by
    have h1 := substShiftVPairs_isSome applyB normOne squash var val kvs
    simp only [substShiftVExprF]
    obtain ⟨a', ha⟩ := Option.isSome_iff_exists.mp h1
    rw [ha]
    rfl
  | .UnionType kts => by
    have h1 := substShiftVOptPairs_isSome applyB normOne squash var val kts
    simp only [substShiftVExprF]
    obtain ⟨a', ha⟩ := Option.isSome_iff_exists.mp h1
    rw [ha]
    rfl
  | .Field e l => by
    have h1 := substShiftV_isSome applyB normOne squash var val e
    simp only [substShiftVExprF]
    obtain ⟨a', ha⟩ := Option.isSome_iff_exists.mp h1
    rw [ha]
    rfl
  | .Projection e ls => by
    have h1 := substShiftV_isSome applyB normOne squash var val e
    simp only [substShiftVExprF]
    obtain ⟨a', ha⟩ := Option.isSome_iff_exists.mp h1
    rw [ha]
    rfl
  | .Merge h u t => by
    have h1 := substShiftV_isSome applyB normOne squash var val h
    have h2 := substShiftV_isSome applyB normOne squash var val u
    have h3 := substShiftVOpt_isSome applyB normOne squash var val t
    simp only [substShiftVExprF]
    obtain ⟨a', ha⟩ := Option.isSome_iff_exists.mp h1
    obtain ⟨b', hb⟩ := Option.isSome_iff_exists.mp h2
    obtain ⟨c', hc⟩ := Option.isSome_iff_exists.mp h3
    rw [ha, hb, hc]
    rfl
  | .ToMap e t => by
    have h1 := substShiftV_isSome applyB normOne squash var val e
    have h2 := substShiftVOpt_isSome applyB normOne squash var val t
    simp only [substShiftVExprF]
    obtain ⟨a', ha⟩ := Option.isSome_iff_exists.mp h1
    obtain ⟨b', hb⟩ := Option.isSome_iff_exists.mp h2
    rw [ha, hb]
    rfl
  | .Assert e => by
    have h1 := substShiftV_isSome applyB normOne squash var val e
    simp only [substShiftVExprF]
    obtain ⟨a', ha⟩ := Option.isSome_iff_exists.mp h1
    rw [ha]
    rfl
  | .Embed e => by
    have h1 := substShiftV_isSome applyB normOne squash var val e
    simp only [substShiftVExprF]
    obtain ⟨a', ha⟩ := Option.isSome_iff_exists.mp h1
    rw [ha]
    rfl

end

/-- C10: `subst_shift` on a `ValueF` is total and never panics, whatever
the re-normalization helpers (`apply_builtin`, `normalize_one_layer`,
`squash_textlit`) do: in particular the index decrement
`v.shift(-1, var).unwrap()` in the non-matching `Var` branch is always
`Some`, because a non-matching variable's index is either below the
threshold (unchanged) or strictly above it (so the decrement stays
non-negative). -/
theorem c10_theorem (applyB : Builtin → List ValueF → ValueF)
    (normOne : ExprFV → ValueF)
    (squash : List InterpolatedTextContents → List InterpolatedTextContents)
    (var : V) (val : ValueF) (v : ValueF) :
    (substShiftV applyB normOne squash var val v).isSome = true ∧
    (∀ w : V, w ≠ var → (varShift (-1) var w).isSome = true) :=
  ⟨substShiftV_isSome applyB normOne squash var val v,
   fun w hw => varShift_neg_one_isSome var w hw⟩

/-- Round-trip of a shift at a single variable occurrence, under the
no-crossing condition. -/
theorem varShift_roundtrip (d : Int) (var v : V)
    (h : varNoCross d var v = true) :
    ∃ v', varShift d var v = some v' ∧ varShift (-d) var v' = some v := by
  obtain ⟨vl, vi⟩ := v
  obtain ⟨wl, wi⟩ := var
  simp only [varNoCross] at h
  simp only [varShift]
  by_cases hc : vl = wl ∧ wi ≤ vi
  · rw [if_pos hc] at h ⊢
    have hd : (wi : Int) ≤ (vi : Int) + d := by
      exact_mod_cast of_decide_eq_true h
    rw [if_neg (show ¬ ((vi : Int) + d < 0) by omega)]
    refine ⟨⟨vl, ((vi : Int) + d).toNat⟩, rfl, ?_⟩
    simp only [varShift]
    rw [if_pos (show vl = wl ∧ wi ≤ ((vi : Int) + d).toNat from
      ⟨hc.1, by omega⟩)]
    rw [if_neg (show ¬ ((((vi : Int) + d).toNat : Int) + -d < 0) by omega)]
    simp only [Option.some.injEq, V.mk.injEq]
    exact ⟨trivial, by omega⟩
  · rw [if_neg hc]
    refine ⟨⟨vl, vi⟩, rfl, ?_⟩
    simp only [varShift]
    rw [if_neg hc]

mutual

/-- Round-trip of `shift` on values under the no-capture condition. -/
theorem shiftV_roundtrip (d : Int) (var : V) :
    (v : ValueF) → noCaptureV d var v = true →
      ∃ v', shiftV d var v = some v' ∧ shiftV (-d) var v' = some v
  | .Lam x t e, h => by
    simp only [noCaptureV, Bool.and_eq_true] at h
    obtain ⟨p1, hp1a, hp1b⟩ := shiftV_roundtrip d var t h.1
    obtain ⟨p2, hp2a, hp2b⟩ := shiftV_roundtrip d (var.underBinder x) e h.2
    refine ⟨.Lam x p1 p2, ?_, ?_⟩
    · simp only [shiftV]
      rw [hp1a, hp2a]
    · simp only [shiftV]
      rw [hp1b, hp2b]
  | .Pi x t e, h => by
    simp only [noCaptureV, Bool.and_eq_true] at h
    obtain ⟨p1, hp1a, hp1b⟩ := shiftV_roundtrip d var t h.1
    obtain ⟨p2, hp2a, hp2b⟩ := shiftV_roundtrip d (var.underBinder x) e h.2
    refine ⟨.Pi x p1 p2, ?_, ?_⟩
    · simp only [shiftV]
      rw [hp1a, hp2a]
    · simp only [shiftV]
      rw [hp1b, hp2b]
  | .AppliedBuiltin b args, h => by
    simp only [noCaptureV] at h
    obtain ⟨p1, hp1a, hp1b⟩ := shiftVList_roundtrip d var args h
    refine ⟨.AppliedBuiltin b p1, ?_, ?_⟩
    · simp only [shiftV]
      rw [hp1a]
    · simp only [shiftV]
      rw [hp1b]
  | .Var v, h => by
    simp only [noCaptureV] at h
    obtain ⟨v', h1, h2⟩ := varShift_roundtrip d var v h
    refine ⟨.Var v', ?_, ?_⟩
    · simp only [shiftV]
      rw [h1]
    · simp only [shiftV]
      rw [h2]
  | .Const c, _ => ⟨.Const c, by simp [shiftV], by simp [shiftV]⟩
  | .BoolLit b, _ => ⟨.BoolLit b, by simp [shiftV], by simp [shiftV]⟩
  | .NaturalLit n, _ => ⟨.NaturalLit n, by simp [shiftV], by simp [shiftV]⟩
  | .IntegerLit n, _ => ⟨.IntegerLit n, by simp [shiftV], by simp [shiftV]⟩
  | .DoubleLit x, _ => ⟨.DoubleLit x, by simp [shiftV], by simp [shiftV]⟩
  | .EmptyOptionalLit t, h => by
    simp only [noCaptureV] at h
    obtain ⟨p1, hp1a, hp1b⟩ := shiftV_roundtrip d var t h
    refine ⟨.EmptyOptionalLit p1, ?_, ?_⟩
    · simp only [shiftV]
      rw [hp1a]
    · simp only [shiftV]
      rw [hp1b]
  | .NEOptionalLit v, h => by
    simp only [noCaptureV] at h
    obtain ⟨p1, hp1a, hp1b⟩ := shiftV_roundtrip d var v h
    refine ⟨.NEOptionalLit p1, ?_, ?_⟩
    · simp only [shiftV]
      rw [hp1a]
    · simp only [shiftV]
      rw [hp1b]
  | .EmptyListLit t, h => by
    simp only [noCaptureV] at h
    obtain ⟨p1, hp1a, hp1b⟩ := shiftV_roundtrip d var t h
    refine ⟨.EmptyListLit p1, ?_, ?_⟩
    · simp only [shiftV]
      rw [hp1a]
    · simp only [shiftV]
      rw [hp1b]
  | .NEListLit elts, h => by
    simp only [noCaptureV] at h
    obtain ⟨p1, hp1a, hp1b⟩ := shiftVList_roundtrip d var elts h
    refine ⟨.NEListLit p1, ?_, ?_⟩
    · simp only [shiftV]
      rw [hp1a]
    · simp only [shiftV]
      rw [hp1b]
  | .RecordLit kvs, h => by
    simp only [noCaptureV] at h
    obtain ⟨p1, hp1a, hp1b⟩ := shiftVPairs_roundtrip d var kvs h
    refine ⟨.RecordLit p1, ?_, ?_⟩
    · simp only [shiftV]
      rw [hp1a]
    · simp only [shiftV]
      rw [hp1b]
  | .RecordType kts, h => by
    simp only [noCaptureV] at h
    obtain ⟨p1, hp1a, hp1b⟩ := shiftVPairs_roundtrip d var kts h
    refine ⟨.RecordType p1, ?_, ?_⟩
    · simp only [shiftV]
      rw [hp1a]
    · simp only [shiftV]
      rw [hp1b]
  | .UnionType kts, h => by
    simp only [noCaptureV] at h
    obtain ⟨p1, hp1a, hp1b⟩ := shiftVOptPairs_roundtrip d var kts h
    refine ⟨.UnionType p1, ?_, ?_⟩
    · simp only [shiftV]
      rw [hp1a]
    · simp only [shiftV]
      rw [hp1b]
  | .UnionConstructor x kts, h => by
    simp only [noCaptureV] at h
    obtain ⟨p1, hp1a, hp1b⟩ := shiftVOptPairs_roundtrip d var kts h
    refine ⟨.UnionConstructor x p1, ?_, ?_⟩
    · simp only [shiftV]
      rw [hp1a]
    · simp only [shiftV]
      rw [hp1b]
  | .UnionLit x v kts, h => by
    simp only [noCaptureV, Bool.and_eq_true] at h
    obtain ⟨p1, hp1a, hp1b⟩ := shiftV_roundtrip d var v h.1
    obtain ⟨p2, hp2a, hp2b⟩ := shiftVOptPairs_roundtrip d var kts h.2
    refine ⟨.UnionLit x p1 p2, ?_, ?_⟩
    · simp only [shiftV]
      rw [hp1a, hp2a]
    · simp only [shiftV]
      rw [hp1b, hp2b]
  | .TextLit elts, h => by
    simp only [noCaptureV] at h
    obtain ⟨p1, hp1a, hp1b⟩ := shiftVText_roundtrip d var elts h
    refine ⟨.TextLit p1, ?_, ?_⟩
    · simp only [shiftV]
      rw [hp1a]
    · simp only [shiftV]
      rw [hp1b]
  | .Equivalence x y, h => by
    simp only [noCaptureV, Bool.and_eq_true] at h
    obtain ⟨p1, hp1a, hp1b⟩ := shiftV_roundtrip d var x h.1
    obtain ⟨p2, hp2a, hp2b⟩ := shiftV_roundtrip d var y h.2
    refine ⟨.Equivalence p1 p2, ?_, ?_⟩
    · simp only [shiftV]
      rw [hp1a, hp2a]
    · simp only [shiftV]
      rw [hp1b, hp2b]
  | .PartialExpr e, h => by
    simp only [noCaptureV] at h
    obtain ⟨p1, hp1a, hp1b⟩ := shiftVExprF_roundtrip d var e h
    refine ⟨.PartialExpr p1, ?_, ?_⟩
    · simp only [shiftV]
      rw [hp1a]
    · simp only [shiftV]
      rw [hp1b]

/-- Round-trip of `shift` over value lists. -/
theorem shiftVList_roundtrip (d : Int) (var : V) :
    (xs : List ValueF) → noCaptureVList d var xs = true →
      ∃ ys, shiftVList d var xs = some ys ∧ shiftVList (-d) var ys = some xs
  | [], _ => ⟨[], by simp [shiftVList], by simp [shiftVList]⟩
  | x :: xs, h => by
    simp only [noCaptureVList, Bool.and_eq_true] at h
    obtain ⟨p1, hp1a, hp1b⟩ := shiftV_roundtrip d var x h.1
    obtain ⟨p2, hp2a, hp2b⟩ := shiftVList_roundtrip d var xs h.2
    refine ⟨p1 :: p2, ?_, ?_⟩
    · simp only [shiftVList]
      rw [hp1a, hp2a]
    · simp only [shiftVList]
      rw [hp1b, hp2b]

/-- Round-trip of `shift` over record maps. -/
theorem shiftVPairs_roundtrip (d : Int) (var : V) :
    (xs : List (Label × ValueF)) → noCaptureVPairs d var xs = true →
      ∃ ys, shiftVPairs d var xs = some ys ∧ shiftVPairs (-d) var ys = some xs
  | [], _ => ⟨[], by simp [shiftVPairs], by simp [shiftVPairs]⟩
  | (l, x) :: xs, h => by
    simp only [noCaptureVPairs, Bool.and_eq_true] at h
    obtain ⟨p1, hp1a, hp1b⟩ := shiftV_roundtrip d var x h.1
    obtain ⟨p2, hp2a, hp2b⟩ := shiftVPairs_roundtrip d var xs h.2
    refine ⟨(l, p1) :: p2, ?_, ?_⟩
    · simp only [shiftVPairs]
      rw [hp1a, hp2a]
    · simp only [shiftVPairs]
      rw [hp1b, hp2b]

/-- Round-trip of `shift` over union maps. -/
theorem shiftVOptPairs_roundtrip (d : Int) (var : V) :
    (xs : List (Label × Option ValueF)) → noCaptureVOptPairs d var xs = true →
      ∃ ys, shiftVOptPairs d var xs = some ys
        ∧ shiftVOptPairs (-d) var ys = some xs
  | [], _ => ⟨[], by simp [shiftVOptPairs], by simp [shiftVOptPairs]⟩
  | (l, none) :: xs, h => by
    simp only [noCaptureVOptPairs] at h
    obtain ⟨p1, hp1a, hp1b⟩ := shiftVOptPairs_roundtrip d var xs h
    refine ⟨(l, none) :: p1, ?_, ?_⟩
    · simp only [shiftVOptPairs]
      rw [hp1a]
    · simp only [shiftVOptPairs]
      rw [hp1b]
  | (l, some x) :: xs, h => by
    simp only [noCaptureVOptPairs, Bool.and_eq_true] at h
    obtain ⟨p1, hp1a, hp1b⟩ := shiftV_roundtrip d var x h.1
    obtain ⟨p2, hp2a, hp2b⟩ := shiftVOptPairs_roundtrip d var xs h.2
    refine ⟨(l, some p1) :: p2, ?_, ?_⟩
    · simp only [shiftVOptPairs]
      rw [hp1a, hp2a]
    · simp only [shiftVOptPairs]
      rw [hp1b, hp2b]

/-- Round-trip of `shift` over interpolated-text segments. -/
theorem shiftVText_roundtrip (d : Int) (var : V) :
    (xs : List InterpolatedTextContents) → noCaptureVText d var xs = true →
      ∃ ys, shiftVText d var xs = some ys ∧ shiftVText (-d) var ys = some xs
  | [], _ => ⟨[], by simp [shiftVText], by simp [shiftVText]⟩
  | .Text s :: xs, h => by
    simp only [noCaptureVText] at h
    obtain ⟨p1, hp1a, hp1b⟩ := shiftVText_roundtrip d var xs h
    refine ⟨.Text s :: p1, ?_, ?_⟩
    · simp only [shiftVText]
      rw [hp1a]
    · simp only [shiftVText]
      rw [hp1b]
  | .Expr x :: xs, h => by
    simp only [noCaptureVText, Bool.and_eq_true] at h
    obtain ⟨p1, hp1a, hp1b⟩ := shiftV_roundtrip d var x h.1
    obtain ⟨p2, hp2a, hp2b⟩ := shiftVText_roundtrip d var xs h.2
    refine ⟨.Expr p1 :: p2, ?_, ?_⟩
    · simp only [shiftVText]
      rw [hp1a, hp2a]
    · simp only [shiftVText]
      rw [hp1b, hp2b]

/-- Round-trip of `shift` over text chunks in a `PartialExpr`. -/
theorem shiftVChunks_roundtrip (d : Int) (var : V) :
    (xs : List (ValueF × String)) → noCaptureVChunks d var xs = true →
      ∃ ys, shiftVChunks d var xs = some ys
        ∧ shiftVChunks (-d) var ys = some xs
  | [], _ => ⟨[], by simp [shiftVChunks], by simp [shiftVChunks]⟩
  | (x, s) :: xs, h => by
    simp only [noCaptureVChunks, Bool.and_eq_true] at h
    obtain ⟨p1, hp1a, hp1b⟩ := shiftV_roundtrip d var x h.1
    obtain ⟨p2, hp2a, hp2b⟩ := shiftVChunks_roundtrip d var xs h.2
    refine ⟨(p1, s) :: p2, ?_, ?_⟩
    · simp only [shiftVChunks]
      rw [hp1a, hp2a]
    · simp only [shiftVChunks]
      rw [hp1b, hp2b]

/-- Round-trip of `shift` over optional subvalues. -/
theorem shiftVOpt_roundtrip (d : Int) (var : V) :
    (xs : Option ValueF) → noCaptureVOpt d var xs = true →
      ∃ ys, shiftVOpt d var xs = some ys ∧ shiftVOpt (-d) var ys = some xs
  | none, _ => ⟨none, by simp [shiftVOpt], by simp [shiftVOpt]⟩
  | some x, h => by
    simp only [noCaptureVOpt] at h
    obtain ⟨p1, hp1a, hp1b⟩ := shiftV_roundtrip d var x h
    refine ⟨some p1, ?_, ?_⟩
    · simp only [shiftVOpt]
      rw [hp1a]
    · simp only [shiftVOpt]
      rw [hp1b]

/-- Round-trip of `shift` over one `PartialExpr` layer. -/
theorem shiftVExprF_roundtrip (d : Int) (var : V) :
    (e : ExprFV) → noCaptureVExprF d var e = true →
      ∃ e', shiftVExprF d var e = some e' ∧ shiftVExprF (-d) var e' = some e
  | .Const c, _ => ⟨.Const c, by simp [shiftVExprF], by simp [shiftVExprF]⟩
  | .Var v, _ => ⟨.Var v, by simp [shiftVExprF], by simp [shiftVExprF]⟩
  | .Lam x t b, h => by
    simp only [noCaptureVExprF, Bool.and_eq_true] at h
    obtain ⟨p1, hp1a, hp1b⟩ := shiftV_roundtrip d var t h.1
    obtain ⟨p2, hp2a, hp2b⟩ := shiftV_roundtrip d (var.underBinder x) b h.2
    refine ⟨.Lam x p1 p2, ?_, ?_⟩
    · simp only [shiftVExprF]
      rw [hp1a, hp2a]
    · simp only [shiftVExprF]
      rw [hp1b, hp2b]
  | .Pi x t b, h => by
    simp only [noCaptureVExprF, Bool.and_eq_true] at h
    obtain ⟨p1, hp1a, hp1b⟩ := shiftV_roundtrip d var t h.1
    obtain ⟨p2, hp2a, hp2b⟩ := shiftV_roundtrip d (var.underBinder x) b h.2
    refine ⟨.Pi x p1 p2, ?_, ?_⟩
    · simp only [shiftVExprF]
      rw [hp1a, hp2a]
    · simp only [shiftVExprF]
      rw [hp1b, hp2b]
  | .App f a, h => by
    simp only [noCaptureVExprF, Bool.and_eq_true] at h
    obtain ⟨p1, hp1a, hp1b⟩ := shiftV_roundtrip d var f h.1
    obtain ⟨p2, hp2a, hp2b⟩ := shiftV_roundtrip d var a h.2
    refine ⟨.App p1 p2, ?_, ?_⟩
    · simp only [shiftVExprF]
      rw [hp1a, hp2a]
    · simp only [shiftVExprF]
      rw [hp1b, hp2b]
  | .Let x t r b, h => by
    simp only [noCaptureVExprF, Bool.and_eq_true] at h
    obtain ⟨⟨hx1, hx2⟩, hx3⟩ := h
    obtain ⟨p1, hp1a, hp1b⟩ := shiftVOpt_roundtrip d var t hx1
    obtain ⟨p2, hp2a, hp2b⟩ := shiftV_roundtrip d var r hx2
    obtain ⟨p3, hp3a, hp3b⟩ := shiftV_roundtrip d (var.underBinder x) b hx3
    refine ⟨.Let x p1 p2 p3, ?_, ?_⟩
    · simp only [shiftVExprF]
      rw [hp1a, hp2a, hp3a]
    · simp only [shiftVExprF]
      rw [hp1b, hp2b, hp3b]
  | .Annot e t, h => by
    simp only [noCaptureVExprF, Bool.and_eq_true] at h
    obtain ⟨p1, hp1a, hp1b⟩ := shiftV_roundtrip d var e h.1
    obtain ⟨p2, hp2a, hp2b⟩ := shiftV_roundtrip d var t h.2
    refine ⟨.Annot p1 p2, ?_, ?_⟩
    · simp only [shiftVExprF]
      rw [hp1a, hp2a]
    · simp only [shiftVExprF]
      rw [hp1b, hp2b]
  | .Builtin b, _ => ⟨.Builtin b, by simp [shiftVExprF], by simp [shiftVExprF]⟩
  | .BoolLit b, _ => ⟨.BoolLit b, by simp [shiftVExprF], by simp [shiftVExprF]⟩
  | .NaturalLit n, _ => ⟨.NaturalLit n, by simp [shiftVExprF], by simp [shiftVExprF]⟩
  | .IntegerLit n, _ => ⟨.IntegerLit n, by simp [shiftVExprF], by simp [shiftVExprF]⟩
  | .DoubleLit x, _ => ⟨.DoubleLit x, by simp [shiftVExprF], by simp [shiftVExprF]⟩
  | .TextLit hd chunks, h => by
    simp only [noCaptureVExprF] at h
    obtain ⟨p1, hp1a, hp1b⟩ := shiftVChunks_roundtrip d var chunks h
    refine ⟨.TextLit hd p1, ?_, ?_⟩
    · simp only [shiftVExprF]
      rw [hp1a]
    · simp only [shiftVExprF]
      rw [hp1b]
  | .BinOp op l r, h => by
    simp only [noCaptureVExprF, Bool.and_eq_true] at h
    obtain ⟨p1, hp1a, hp1b⟩ := shiftV_roundtrip d var l h.1
    obtain ⟨p2, hp2a, hp2b⟩ := shiftV_roundtrip d var r h.2
    refine ⟨.BinOp op p1 p2, ?_, ?_⟩
    · simp only [shiftVExprF]
      rw [hp1a, hp2a]
    · simp only [shiftVExprF]
      rw [hp1b, hp2b]
  | .BoolIf c t e, h => by
    simp only [noCaptureVExprF, Bool.and_eq_true] at h
    obtain ⟨⟨hx1, hx2⟩, hx3⟩ := h
    obtain ⟨p1, hp1a, hp1b⟩ := shiftV_roundtrip d var c hx1
    obtain ⟨p2, hp2a, hp2b⟩ := shiftV_roundtrip d var t hx2
    obtain ⟨p3, hp3a, hp3b⟩ := shiftV_roundtrip d var e hx3
    refine ⟨.BoolIf p1 p2 p3, ?_, ?_⟩
    · simp only [shiftVExprF]
      rw [hp1a, hp2a, hp3a]
    · simp only [shiftVExprF]
      rw [hp1b, hp2b, hp3b]
  | .EmptyListLit t, h => by
    simp only [noCaptureVExprF] at h
    obtain ⟨p1, hp1a, hp1b⟩ := shiftV_roundtrip d var t h
    refine ⟨.EmptyListLit p1, ?_, ?_⟩
    · simp only [shiftVExprF]
      rw [hp1a]
    · simp only [shiftVExprF]
      rw [hp1b]
  | .NEListLit xs, h => by
    simp only [noCaptureVExprF] at h
    obtain ⟨p1, hp1a, hp1b⟩ := shiftVList_roundtrip d var xs h
    refine ⟨.NEListLit p1, ?_, ?_⟩
    · simp only [shiftVExprF]
      rw [hp1a]
    · simp only [shiftVExprF]
      rw [hp1b]
  | .SomeLit e, h => by
    simp only [noCaptureVExprF] at h
    obtain ⟨p1, hp1a, hp1b⟩ := shiftV_roundtrip d var e h
    refine ⟨.SomeLit p1, ?_, ?_⟩
    · simp only [shiftVExprF]
      rw [hp1a]
    · simp only [shiftVExprF]
      rw [hp1b]
  | .RecordType kts, h => by
    simp only [noCaptureVExprF] at h
    obtain ⟨p1, hp1a, hp1b⟩ := shiftVPairs_roundtrip d var kts h
    refine ⟨.RecordType p1, ?_, ?_⟩
    · simp only [shiftVExprF]
      rw [hp1a]
    · simp only [shiftVExprF]
      rw [hp1b]
  | .RecordLit kvs, h => by
    simp only [noCaptureVExprF] at h
    obtain ⟨p1, hp1a, hp1b⟩ := shiftVPairs_roundtrip d var kvs h
    refine ⟨.RecordLit p1, ?_, ?_⟩
    · simp only [shiftVExprF]
      rw [hp1a]
    · simp only [shiftVExprF]
      rw [hp1b]
  | .UnionType kts, h => by
    simp only [noCaptureVExprF] at h
    obtain ⟨p1, hp1a, hp1b⟩ := shiftVOptPairs_roundtrip d var kts h
    refine ⟨.UnionType p1, ?_, ?_⟩
    · simp only [shiftVExprF]
      rw [hp1a]
    · simp only [shiftVExprF]
      rw [hp1b]
  | .Field e l, h => by
    simp only [noCaptureVExprF] at h
    obtain ⟨p1, hp1a, hp1b⟩ := shiftV_roundtrip d var e h
    refine ⟨(.Field p1 l), ?_, ?_⟩
    · simp only [shiftVExprF]
      rw [hp1a]
    · simp only [shiftVExprF]
      rw [hp1b]
  | .Projection e ls, h => by
    simp only [noCaptureVExprF] at h
    obtain ⟨p1, hp1a, hp1b⟩ := shiftV_roundtrip d var e h
    refine ⟨(.Projection p1 ls), ?_, ?_⟩
    · simp only [shiftVExprF]
      rw [hp1a]
    · simp only [shiftVExprF]
      rw [hp1b]
  | .Merge hh u t, h => by
    simp only [noCaptureVExprF, Bool.and_eq_true] at h
    obtain ⟨⟨hx1, hx2⟩, hx3⟩ := h
    obtain ⟨p1, hp1a, hp1b⟩ := shiftV_roundtrip d var hh hx1
    obtain ⟨p2, hp2a, hp2b⟩ := shiftV_roundtrip d var u hx2
    obtain ⟨p3, hp3a, hp3b⟩ := shiftVOpt_roundtrip d var t hx3
    refine ⟨.Merge p1 p2 p3, ?_, ?_⟩
    · simp only [shiftVExprF]
      rw [hp1a, hp2a, hp3a]
    · simp only [shiftVExprF]
      rw [hp1b, hp2b, hp3b]
  | .ToMap e t, h => by
    simp only [noCaptureVExprF, Bool.and_eq_true] at h
    obtain ⟨p1, hp1a, hp1b⟩ := shiftV_roundtrip d var e h.1
    obtain ⟨p2, hp2a, hp2b⟩ := shiftVOpt_roundtrip d var t h.2
    refine ⟨.ToMap p1 p2, ?_, ?_⟩
    · simp only [shiftVExprF]
      rw [hp1a, hp2a]
    · simp only [shiftVExprF]
      rw [hp1b, hp2b]
  | .Assert e, h => by
    simp only [noCaptureVExprF] at h
    obtain ⟨p1, hp1a, hp1b⟩ := shiftV_roundtrip d var e h
    refine ⟨.Assert p1, ?_, ?_⟩
    · simp only [shiftVExprF]
      rw [hp1a]
    · simp only [shiftVExprF]
      rw [hp1b]
  | .Embed e, h => by
    simp only [noCaptureVExprF] at h
    obtain ⟨p1, hp1a, hp1b⟩ := shiftV_roundtrip d var e h
    refine ⟨.Embed p1, ?_, ?_⟩
    · simp only [shiftVExprF]
      rw [hp1a]
    · simp only [shiftVExprF]
      rw [hp1b]

end

/-- C8: for every value `e`, variable `v` and shift amount `Δ` such that no
capture would occur (no free occurrence of `v`'s label crosses the shift
threshold — always the case for `Δ ≥ 0`), shifting by `Δ` and then by `-Δ`
with respect to `v` is the identity. -/
theorem c8_theorem (d : Int) (var : V) (e : ValueF)
    (h : noCaptureV d var e = true) :
    ∃ e', shiftV d var e = some e' ∧ shiftV (-d) var e' = some e :=
  shiftV_roundtrip d var e h

/-- C8 (witness): the round-trip at `Δ = 1`, `v = x@0` on the value
`λ(y : x@0) → x@1 y` (an occurrence under a binder of a different label and
one at the threshold). -/
theorem c8_witness :
    noCaptureV 1 ⟨"x", 0⟩
        (.Lam "y" (.Var ⟨"x", 0⟩)
          (.PartialExpr (.App (.Var ⟨"x", 1⟩) (.Var ⟨"y", 0⟩)))) = true ∧
    ∃ e', shiftV 1 ⟨"x", 0⟩
        (.Lam "y" (.Var ⟨"x", 0⟩)
          (.PartialExpr (.App (.Var ⟨"x", 1⟩) (.Var ⟨"y", 0⟩)))) = some e'
      ∧ shiftV (-1) ⟨"x", 0⟩ e'
          = some (.Lam "y" (.Var ⟨"x", 0⟩)
              (.PartialExpr (.App (.Var ⟨"x", 1⟩) (.Var ⟨"y", 0⟩)))) :=
  ⟨by decide, c8_theorem 1 ⟨"x", 0⟩ _ (by decide)⟩


/-! ### Fuel monotonicity and children lemmas for the normalizer -/

theorem mapMo_mono {α β : Type} {f g : α → Option β}
    (hfg : ∀ a b, f a = some b → g a = some b) :
    ∀ {l : List α} {l' : List β}, mapMo f l = some l' → mapMo g l = some l'
  | [], _, h => h
  | x :: xs, l', h => by
    simp only [mapMo] at h ⊢
    cases hfa : f x with
    | none => rw [hfa] at h; exact absurd h (by simp)
    | some y =>
      cases hms : mapMo f xs with
      | none => rw [hfa, hms] at h; exact absurd h (by simp)
      | some ys =>
        rw [hfa, hms] at h
        rw [hfg _ _ hfa, mapMo_mono hfg hms]
        exact h

theorem mapSnd_mono {α β : Type} {f g : β → Option β}
    (hfg : ∀ a b, f a = some b → g a = some b) :
    ∀ {l l' : List (α × β)}, mapSnd f l = some l' → mapSnd g l = some l'
  | [], _, h => h
  | (a, x) :: xs, l', h => by
    simp only [mapSnd] at h ⊢
    cases hfa : f x with
    | none => rw [hfa] at h; exact absurd h (by simp)
    | some y =>
      cases hms : mapSnd f xs with
      | none => rw [hfa, hms] at h; exact absurd h (by simp)
      | some ys =>
        rw [hfa, hms] at h
        rw [hfg _ _ hfa, mapSnd_mono hfg hms]
        exact h

theorem mapFst_mono {α β : Type} {f g : α → Option α}
    (hfg : ∀ a b, f a = some b → g a = some b) :
    ∀ {l l' : List (α × β)}, mapFst f l = some l' → mapFst g l = some l'
  | [], _, h => h
  | (x, s) :: xs, l', h => by
    simp only [mapFst] at h ⊢
    cases hfa : f x with
    | none => rw [hfa] at h; exact absurd h (by simp)
    | some y =>
      cases hms : mapFst f xs with
      | none => rw [hfa, hms] at h; exact absurd h (by simp)
      | some ys =>
        rw [hfa, hms] at h
        rw [hfg _ _ hfa, mapFst_mono hfg hms]
        exact h

theorem mapOpt_mono {α : Type} {f g : α → Option α}
    (hfg : ∀ a b, f a = some b → g a = some b) :
    ∀ {o o' : Option α}, mapOpt f o = some o' → mapOpt g o = some o'
  | none, _, h => h
  | some x, o', h => by
    simp only [mapOpt] at h ⊢
    cases hfa : f x with
    | none => rw [hfa] at h; exact absurd h (by simp)
    | some y =>
      rw [hfa] at h
      rw [hfg _ _ hfa]
      exact h

theorem mapMo_image {α β : Type} {f : α → Option β} :
    ∀ {l : List α} {l' : List β}, mapMo f l = some l' →
      ∀ b ∈ l', ∃ a, f a = some b
  | [], l', h => by
    simp only [mapMo] at h
    cases h
    intro b hb
    exact absurd hb (List.not_mem_nil b)
  | x :: xs, l', h => by
    simp only [mapMo] at h
    cases hfa : f x with
    | none => rw [hfa] at h; exact absurd h (by simp)
    | some y =>
      cases hms : mapMo f xs with
      | none => rw [hfa, hms] at h; exact absurd h (by simp)
      | some ys =>
        rw [hfa, hms] at h
        cases h
        intro b hb
        rcases List.mem_cons.mp hb with rfl | hb
        · exact ⟨x, hfa⟩
        · exact mapMo_image hms b hb

theorem mapSnd_image {α β : Type} {f : β → Option β} :
    ∀ {l l' : List (α × β)}, mapSnd f l = some l' →
      ∀ b ∈ l'.map Prod.snd, ∃ a, f a = some b
  | [], l', h => by
    simp only [mapSnd] at h
    cases h
    intro b hb
    exact absurd hb (List.not_mem_nil b)
  | (a, x) :: xs, l', h => by
    simp only [mapSnd] at h
    cases hfa : f x with
    | none => rw [hfa] at h; exact absurd h (by simp)
    | some y =>
      cases hms : mapSnd f xs with
      | none => rw [hfa, hms] at h; exact absurd h (by simp)
      | some ys =>
        rw [hfa, hms] at h
        cases h
        intro b hb
        rcases List.mem_cons.mp hb with rfl | hb
        · exact ⟨x, hfa⟩
        · exact mapSnd_image hms b hb

theorem mapFst_image {α β : Type} {f : α → Option α} :
    ∀ {l l' : List (α × β)}, mapFst f l = some l' →
      ∀ b ∈ l'.map Prod.fst, ∃ a, f a = some b
  | [], l', h => by
    simp only [mapFst] at h
    cases h
    intro b hb
    exact absurd hb (List.not_mem_nil b)
  | (x, s) :: xs, l', h => by
    simp only [mapFst] at h
    cases hfa : f x with
    | none => rw [hfa] at h; exact absurd h (by simp)
    | some y =>
      cases hms : mapFst f xs with
      | none => rw [hfa, hms] at h; exact absurd h (by simp)
      | some ys =>
        rw [hfa, hms] at h
        cases h
        intro b hb
        rcases List.mem_cons.mp hb with rfl | hb
        · exact ⟨x, hfa⟩
        · exact mapFst_image hms b hb

theorem mapOpt_image {α : Type} {f : α → Option α} :
    ∀ {o o' : Option α}, mapOpt f o = some o' →
      ∀ b ∈ o'.toList, ∃ a, f a = some b
  | none, o', h => by
    simp only [mapOpt] at h
    cases h
    intro b hb
    exact absurd hb (List.not_mem_nil b)
  | some x, o', h => by
    simp only [mapOpt] at h
    cases hfa : f x with
    | none => rw [hfa] at h; exact absurd h (by simp)
    | some y =>
      rw [hfa] at h
      rw [show (some y).map (some : α → Option α) = some (some y) from rfl] at h
      cases h
      intro b hb
      rcases List.mem_singleton.mp (by simpa using hb) with rfl
      exact ⟨x, hfa⟩

theorem mapMo_id {α : Type} {f : α → Option α} :
    ∀ {l : List α}, (∀ a ∈ l, f a = some a) → mapMo f l = some l
  | [], _ => rfl
  | x :: xs, h => by
    simp only [mapMo]
    rw [h x (List.mem_cons_self _ _),
      mapMo_id (fun a ha => h a (List.mem_cons_of_mem _ ha))]

theorem mapSnd_id {α β : Type} {f : β → Option β} :
    ∀ {l : List (α × β)}, (∀ p ∈ l, f p.2 = some p.2) → mapSnd f l = some l
  | [], _ => rfl
  | (a, x) :: xs, h => by
    simp only [mapSnd]
    rw [h (a, x) (List.mem_cons_self _ _),
      mapSnd_id (fun p hp => h p (List.mem_cons_of_mem _ hp))]

theorem mapFst_id {α β : Type} {f : α → Option α} :
    ∀ {l : List (α × β)}, (∀ p ∈ l, f p.1 = some p.1) → mapFst f l = some l
  | [], _ => rfl
  | (x, s) :: xs, h => by
    simp only [mapFst]
    rw [h (x, s) (List.mem_cons_self _ _),
      mapFst_id (fun p hp => h p (List.mem_cons_of_mem _ hp))]

theorem mapOpt_id {α : Type} {f : α → Option α} :
    ∀ {o : Option α}, (∀ a ∈ o.toList, f a = some a) → mapOpt f o = some o
  | none, _ => rfl
  | some x, h => by
    simp only [mapOpt]
    rw [h x (by simp)]
    rfl

theorem mapMo_eq_self {α : Type} {f : α → Option α} :
    ∀ {l : List α}, mapMo f l = some l → ∀ a ∈ l, f a = some a
  | [], _, a, ha => absurd ha (List.not_mem_nil a)
  | x :: xs, h, a, ha => by
    simp only [mapMo] at h
    cases hfa : f x with
    | none => rw [hfa] at h; exact absurd h (by simp)
    | some y =>
      cases hms : mapMo f xs with
      | none => rw [hfa, hms] at h; exact absurd h (by simp)
      | some ys =>
        rw [hfa, hms] at h
        simp only [Option.some.injEq, List.cons.injEq] at h
        rcases List.mem_cons.mp ha with rfl | ha
        · rw [hfa, h.1]
        · exact mapMo_eq_self (h.2 ▸ hms) a ha

theorem mapSnd_eq_self {α β : Type} {f : β → Option β} :
    ∀ {l : List (α × β)}, mapSnd f l = some l → ∀ p ∈ l, f p.2 = some p.2
  | [], _, p, hp => absurd hp (List.not_mem_nil p)
  | (a, x) :: xs, h, p, hp => by
    simp only [mapSnd] at h
    cases hfa : f x with
    | none => rw [hfa] at h; exact absurd h (by simp)
    | some y =>
      cases hms : mapSnd f xs with
      | none => rw [hfa, hms] at h; exact absurd h (by simp)
      | some ys =>
        rw [hfa, hms] at h
        simp only [Option.some.injEq, List.cons.injEq, Prod.mk.injEq] at h
        rcases List.mem_cons.mp hp with rfl | hp
        · rw [hfa, h.1.2]
        · exact mapSnd_eq_self (h.2 ▸ hms) p hp

theorem mapFst_eq_self {α β : Type} {f : α → Option α} :
    ∀ {l : List (α × β)}, mapFst f l = some l → ∀ p ∈ l, f p.1 = some p.1
  | [], _, p, hp => absurd hp (List.not_mem_nil p)
  | (x, s) :: xs, h, p, hp => by
    simp only [mapFst] at h
    cases hfa : f x with
    | none => rw [hfa] at h; exact absurd h (by simp)
    | some y =>
      cases hms : mapFst f xs with
      | none => rw [hfa, hms] at h; exact absurd h (by simp)
      | some ys =>
        rw [hfa, hms] at h
        simp only [Option.some.injEq, List.cons.injEq, Prod.mk.injEq] at h
        rcases List.mem_cons.mp hp with rfl | hp
        · rw [hfa, h.1.1]
        · exact mapFst_eq_self (h.2 ▸ hms) p hp

/-- Pointwise monotone refinement of the child normalizer lifts through
one `map_ref_simple` layer. -/
theorem mapChildren_mono {f g : Expr → Option Expr}
    (hfg : ∀ a b, f a = some b → g a = some b) :
    ∀ {e e' : Expr}, mapChildren f e = some e' → mapChildren g e = some e'
  | .Const c, _, h => h
  | .Var v, _, h => h
  | .Lam x t b, e', h => by
    simp only [mapChildren] at h ⊢
    cases hm1 : f t with
    | none => rw [hm1] at h; exact absurd h (by simp)
    | some q1 =>
      cases hm2 : f b with
      | none => rw [hm1, hm2] at h; exact absurd h (by simp)
      | some q2 =>
        rw [hm1, hm2] at h
        rw [hfg _ _ hm1, hfg _ _ hm2]
        exact h
  | .Pi x t b, e', h => by
    simp only [mapChildren] at h ⊢
    cases hm1 : f t with
    | none => rw [hm1] at h; exact absurd h (by simp)
    | some q1 =>
      cases hm2 : f b with
      | none => rw [hm1, hm2] at h; exact absurd h (by simp)
      | some q2 =>
        rw [hm1, hm2] at h
        rw [hfg _ _ hm1, hfg _ _ hm2]
        exact h
  | .App g args, e', h => by
    simp only [mapChildren] at h ⊢
    cases hm1 : f g with
    | none => rw [hm1] at h; exact absurd h (by simp)
    | some q1 =>
      cases hm2 : mapMo f args with
      | none => rw [hm1, hm2] at h; exact absurd h (by simp)
      | some q2 =>
        rw [hm1, hm2] at h
        rw [hfg _ _ hm1, mapMo_mono hfg hm2]
        exact h
  | .Let x t r b, e', h => by
    simp only [mapChildren] at h ⊢
    cases hm1 : mapOpt f t with
    | none => rw [hm1] at h; exact absurd h (by simp)
    | some q1 =>
      cases hm2 : f r with
      | none => rw [hm1, hm2] at h; exact absurd h (by simp)
      | some q2 =>
        cases hm3 : f b with
        | none => rw [hm1, hm2, hm3] at h; exact absurd h (by simp)
        | some q3 =>
          rw [hm1, hm2, hm3] at h
          rw [mapOpt_mono hfg hm1, hfg _ _ hm2, hfg _ _ hm3]
          exact h
  | .Annot e t, e', h => by
    simp only [mapChildren] at h ⊢
    cases hm1 : f e with
    | none => rw [hm1] at h; exact absurd h (by simp)
    | some q1 =>
      cases hm2 : f t with
      | none => rw [hm1, hm2] at h; exact absurd h (by simp)
      | some q2 =>
        rw [hm1, hm2] at h
        rw [hfg _ _ hm1, hfg _ _ hm2]
        exact h
  | .Builtin b, _, h => h
  | .BoolLit b, _, h => h
  | .NaturalLit n, _, h => h
  | .IntegerLit n, _, h => h
  | .DoubleLit d, _, h => h
  | .TextLit hh chunks, e', h => by
    simp only [mapChildren] at h ⊢
    cases hm1 : mapFst f chunks with
    | none => rw [hm1] at h; exact absurd h (by simp)
    | some q1 =>
      rw [hm1] at h
      rw [mapFst_mono hfg hm1]
      exact h
  | .BinOp op l r, e', h => by
    simp only [mapChildren] at h ⊢
    cases hm1 : f l with
    | none => rw [hm1] at h; exact absurd h (by simp)
    | some q1 =>
      cases hm2 : f r with
      | none => rw [hm1, hm2] at h; exact absurd h (by simp)
      | some q2 =>
        rw [hm1, hm2] at h
        rw [hfg _ _ hm1, hfg _ _ hm2]
        exact h
  | .BoolIf c t e, e', h => by
    simp only [mapChildren] at h ⊢
    cases hm1 : f c with
    | none => rw [hm1] at h; exact absurd h (by simp)
    | some q1 =>
      cases hm2 : f t with
      | none => rw [hm1, hm2] at h; exact absurd h (by simp)
      | some q2 =>
        cases hm3 : f e with
        | none => rw [hm1, hm2, hm3] at h; exact absurd h (by simp)
        | some q3 =>
          rw [hm1, hm2, hm3] at h
          rw [hfg _ _ hm1, hfg _ _ hm2, hfg _ _ hm3]
          exact h
  | .EmptyListLit t, e', h => by
    simp only [mapChildren] at h ⊢
    cases hm1 : f t with
    | none => rw [hm1] at h; exact absurd h (by simp)
    | some q1 =>
      rw [hm1] at h
      rw [hfg _ _ hm1]
      exact h
  | .NEListLit xs, e', h => by
    simp only [mapChildren] at h ⊢
    cases hm1 : mapMo f xs with
    | none => rw [hm1] at h; exact absurd h (by simp)
    | some q1 =>
      rw [hm1] at h
      rw [mapMo_mono hfg hm1]
      exact h
  | .EmptyOptionalLit t, e', h => by
    simp only [mapChildren] at h ⊢
    cases hm1 : f t with
    | none => rw [hm1] at h; exact absurd h (by simp)
    | some q1 =>
      rw [hm1] at h
      rw [hfg _ _ hm1]
      exact h
  | .NEOptionalLit x, e', h => by
    simp only [mapChildren] at h ⊢
    cases hm1 : f x with
    | none => rw [hm1] at h; exact absurd h (by simp)
    | some q1 =>
      rw [hm1] at h
      rw [hfg _ _ hm1]
      exact h
  | .RecordType kts, e', h => by
    simp only [mapChildren] at h ⊢
    cases hm1 : mapSnd f kts with
    | none => rw [hm1] at h; exact absurd h (by simp)
    | some q1 =>
      rw [hm1] at h
      rw [mapSnd_mono hfg hm1]
      exact h
  | .RecordLit kvs, e', h => by
    simp only [mapChildren] at h ⊢
    cases hm1 : mapSnd f kvs with
    | none => rw [hm1] at h; exact absurd h (by simp)
    | some q1 =>
      rw [hm1] at h
      rw [mapSnd_mono hfg hm1]
      exact h
  | .UnionType kts, e', h => by
    simp only [mapChildren] at h ⊢
    cases hm1 : mapSnd f kts with
    | none => rw [hm1] at h; exact absurd h (by simp)
    | some q1 =>
      rw [hm1] at h
      rw [mapSnd_mono hfg hm1]
      exact h
  | .UnionLit lb x kts, e', h => by
    simp only [mapChildren] at h ⊢
    cases hm1 : f x with
    | none => rw [hm1] at h; exact absurd h (by simp)
    | some q1 =>
      cases hm2 : mapSnd f kts with
      | none => rw [hm1, hm2] at h; exact absurd h (by simp)
      | some q2 =>
        rw [hm1, hm2] at h
        rw [hfg _ _ hm1, mapSnd_mono hfg hm2]
        exact h
  | .Merge mh mu mt, e', h => by
    simp only [mapChildren] at h ⊢
    cases hm1 : f mh with
    | none => rw [hm1] at h; exact absurd h (by simp)
    | some q1 =>
      cases hm2 : f mu with
      | none => rw [hm1, hm2] at h; exact absurd h (by simp)
      | some q2 =>
        cases hm3 : mapOpt f mt with
        | none => rw [hm1, hm2, hm3] at h; exact absurd h (by simp)
        | some q3 =>
          rw [hm1, hm2, hm3] at h
          rw [hfg _ _ hm1, hfg _ _ hm2, mapOpt_mono hfg hm3]
          exact h
  | .Field e lb, e', h => by
    simp only [mapChildren] at h ⊢
    cases hm1 : f e with
    | none => rw [hm1] at h; exact absurd h (by simp)
    | some q1 =>
      rw [hm1] at h
      rw [hfg _ _ hm1]
      exact h
  | .Projection e ls, e', h => by
    simp only [mapChildren] at h ⊢
    cases hm1 : f e with
    | none => rw [hm1] at h; exact absurd h (by simp)
    | some q1 =>
      rw [hm1] at h
      rw [hfg _ _ hm1]
      exact h

/-- Every immediate subexpression of the result of a `map_ref_simple` layer
is an output of the child function. -/
theorem mapChildren_image {f : Expr → Option Expr} :
    ∀ {e e' : Expr}, mapChildren f e = some e' →
      ∀ c ∈ children e', ∃ a, f a = some c
  | .Const c, e', h, cc, hcc => by
    simp only [mapChildren] at h
    cases h
    simp only [children] at hcc
    exact absurd hcc (List.not_mem_nil cc)
  | .Var v, e', h, cc, hcc => by
    simp only [mapChildren] at h
    cases h
    simp only [children] at hcc
    exact absurd hcc (List.not_mem_nil cc)
  | .Lam x t b, e', h, cc, hcc => by
    simp only [mapChildren] at h
    cases hm1 : f t with
    | none => rw [hm1] at h; exact absurd h (by simp)
    | some q1 =>
      cases hm2 : f b with
      | none => rw [hm1, hm2] at h; exact absurd h (by simp)
      | some q2 =>
        rw [hm1, hm2] at h
        injection h with h
        subst h
        simp only [children] at hcc
        rcases List.mem_cons.mp hcc with rfl | hcc
        · exact ⟨t, hm1⟩
        rcases List.mem_cons.mp hcc with rfl | hcc
        · exact ⟨b, hm2⟩
        exact absurd hcc (List.not_mem_nil cc)
  | .Pi x t b, e', h, cc, hcc => by
    simp only [mapChildren] at h
    cases hm1 : f t with
    | none => rw [hm1] at h; exact absurd h (by simp)
    | some q1 =>
      cases hm2 : f b with
      | none => rw [hm1, hm2] at h; exact absurd h (by simp)
      | some q2 =>
        rw [hm1, hm2] at h
        injection h with h
        subst h
        simp only [children] at hcc
        rcases List.mem_cons.mp hcc with rfl | hcc
        · exact ⟨t, hm1⟩
        rcases List.mem_cons.mp hcc with rfl | hcc
        · exact ⟨b, hm2⟩
        exact absurd hcc (List.not_mem_nil cc)
  | .App g args, e', h, cc, hcc => by
    simp only [mapChildren] at h
    cases hm1 : f g with
    | none => rw [hm1] at h; exact absurd h (by simp)
    | some q1 =>
      cases hm2 : mapMo f args with
      | none => rw [hm1, hm2] at h; exact absurd h (by simp)
      | some q2 =>
        rw [hm1, hm2] at h
        injection h with h
        subst h
        simp only [children] at hcc
        rcases List.mem_cons.mp hcc with rfl | hcc
        · exact ⟨g, hm1⟩
        exact mapMo_image hm2 cc hcc
  | .Let x t r b, e', h, cc, hcc => by
    simp only [mapChildren] at h
    cases hm1 : mapOpt f t with
    | none => rw [hm1] at h; exact absurd h (by simp)
    | some q1 =>
      cases hm2 : f r with
      | none => rw [hm1, hm2] at h; exact absurd h (by simp)
      | some q2 =>
        cases hm3 : f b with
        | none => rw [hm1, hm2, hm3] at h; exact absurd h (by simp)
        | some q3 =>
          rw [hm1, hm2, hm3] at h
          injection h with h
          subst h
          simp only [children] at hcc
          rcases List.mem_append.mp hcc with hcc | hcc
          · exact mapOpt_image hm1 cc hcc
          rcases List.mem_cons.mp hcc with rfl | hcc
          · exact ⟨r, hm2⟩
          rcases List.mem_cons.mp hcc with rfl | hcc
          · exact ⟨b, hm3⟩
          exact absurd hcc (List.not_mem_nil cc)
  | .Annot e t, e', h, cc, hcc => by
    simp only [mapChildren] at h
    cases hm1 : f e with
    | none => rw [hm1] at h; exact absurd h (by simp)
    | some q1 =>
      cases hm2 : f t with
      | none => rw [hm1, hm2] at h; exact absurd h (by simp)
      | some q2 =>
        rw [hm1, hm2] at h
        injection h with h
        subst h
        simp only [children] at hcc
        rcases List.mem_cons.mp hcc with rfl | hcc
        · exact ⟨e, hm1⟩
        rcases List.mem_cons.mp hcc with rfl | hcc
        · exact ⟨t, hm2⟩
        exact absurd hcc (List.not_mem_nil cc)
  | .Builtin b, e', h, cc, hcc => by
    simp only [mapChildren] at h
    cases h
    simp only [children] at hcc
    exact absurd hcc (List.not_mem_nil cc)
  | .BoolLit b, e', h, cc, hcc => by
    simp only [mapChildren] at h
    cases h
    simp only [children] at hcc
    exact absurd hcc (List.not_mem_nil cc)
  | .NaturalLit n, e', h, cc, hcc => by
    simp only [mapChildren] at h
    cases h
    simp only [children] at hcc
    exact absurd hcc (List.not_mem_nil cc)
  | .IntegerLit n, e', h, cc, hcc => by
    simp only [mapChildren] at h
    cases h
    simp only [children] at hcc
    exact absurd hcc (List.not_mem_nil cc)
  | .DoubleLit d, e', h, cc, hcc => by
    simp only [mapChildren] at h
    cases h
    simp only [children] at hcc
    exact absurd hcc (List.not_mem_nil cc)
  | .TextLit hh chunks, e', h, cc, hcc => by
    simp only [mapChildren] at h
    cases hm1 : mapFst f chunks with
    | none => rw [hm1] at h; exact absurd h (by simp)
    | some q1 =>
      rw [hm1] at h
      injection h with h
      subst h
      simp only [children] at hcc
      exact mapFst_image hm1 cc hcc
  | .BinOp op l r, e', h, cc, hcc => by
    simp only [mapChildren] at h
    cases hm1 : f l with
    | none => rw [hm1] at h; exact absurd h (by simp)
    | some q1 =>
      cases hm2 : f r with
      | none => rw [hm1, hm2] at h; exact absurd h (by simp)
      | some q2 =>
        rw [hm1, hm2] at h
        injection h with h
        subst h
        simp only [children] at hcc
        rcases List.mem_cons.mp hcc with rfl | hcc
        · exact ⟨l, hm1⟩
        rcases List.mem_cons.mp hcc with rfl | hcc
        · exact ⟨r, hm2⟩
        exact absurd hcc (List.not_mem_nil cc)
  | .BoolIf c t e, e', h, cc, hcc => by
    simp only [mapChildren] at h
    cases hm1 : f c with
    | none => rw [hm1] at h; exact absurd h (by simp)
    | some q1 =>
      cases hm2 : f t with
      | none => rw [hm1, hm2] at h; exact absurd h (by simp)
      | some q2 =>
        cases hm3 : f e with
        | none => rw [hm1, hm2, hm3] at h; exact absurd h (by simp)
        | some q3 =>
          rw [hm1, hm2, hm3] at h
          injection h with h
          subst h
          simp only [children] at hcc
          rcases List.mem_cons.mp hcc with rfl | hcc
          · exact ⟨c, hm1⟩
          rcases List.mem_cons.mp hcc with rfl | hcc
          · exact ⟨t, hm2⟩
          rcases List.mem_cons.mp hcc with rfl | hcc
          · exact ⟨e, hm3⟩
          exact absurd hcc (List.not_mem_nil cc)
  | .EmptyListLit t, e', h, cc, hcc => by
    simp only [mapChildren] at h
    cases hm1 : f t with
    | none => rw [hm1] at h; exact absurd h (by simp)
    | some q1 =>
      rw [hm1] at h
      injection h with h
      subst h
      simp only [children] at hcc
      rcases List.mem_cons.mp hcc with rfl | hcc
      · exact ⟨t, hm1⟩
      exact absurd hcc (List.not_mem_nil cc)
  | .NEListLit xs, e', h, cc, hcc => by
    simp only [mapChildren] at h
    cases hm1 : mapMo f xs with
    | none => rw [hm1] at h; exact absurd h (by simp)
    | some q1 =>
      rw [hm1] at h
      injection h with h
      subst h
      simp only [children] at hcc
      exact mapMo_image hm1 cc hcc
  | .EmptyOptionalLit t, e', h, cc, hcc => by
    simp only [mapChildren] at h
    cases hm1 : f t with
    | none => rw [hm1] at h; exact absurd h (by simp)
    | some q1 =>
      rw [hm1] at h
      injection h with h
      subst h
      simp only [children] at hcc
      rcases List.mem_cons.mp hcc with rfl | hcc
      · exact ⟨t, hm1⟩
      exact absurd hcc (List.not_mem_nil cc)
  | .NEOptionalLit x, e', h, cc, hcc => by
    simp only [mapChildren] at h
    cases hm1 : f x with
    | none => rw [hm1] at h; exact absurd h (by simp)
    | some q1 =>
      rw [hm1] at h
      injection h with h
      subst h
      simp only [children] at hcc
      rcases List.mem_cons.mp hcc with rfl | hcc
      · exact ⟨x, hm1⟩
      exact absurd hcc (List.not_mem_nil cc)
  | .RecordType kts, e', h, cc, hcc => by
    simp only [mapChildren] at h
    cases hm1 : mapSnd f kts with
    | none => rw [hm1] at h; exact absurd h (by simp)
    | some q1 =>
      rw [hm1] at h
      injection h with h
      subst h
      simp only [children] at hcc
      exact mapSnd_image hm1 cc hcc
  | .RecordLit kvs, e', h, cc, hcc => by
    simp only [mapChildren] at h
    cases hm1 : mapSnd f kvs with
    | none => rw [hm1] at h; exact absurd h (by simp)
    | some q1 =>
      rw [hm1] at h
      injection h with h
      subst h
      simp only [children] at hcc
      exact mapSnd_image hm1 cc hcc
  | .UnionType kts, e', h, cc, hcc => by
    simp only [mapChildren] at h
    cases hm1 : mapSnd f kts with
    | none => rw [hm1] at h; exact absurd h (by simp)
    | some q1 =>
      rw [hm1] at h
      injection h with h
      subst h
      simp only [children] at hcc
      exact mapSnd_image hm1 cc hcc
  | .UnionLit lb x kts, e', h, cc, hcc => by
    simp only [mapChildren] at h
    cases hm1 : f x with
    | none => rw [hm1] at h; exact absurd h (by simp)
    | some q1 =>
      cases hm2 : mapSnd f kts with
      | none => rw [hm1, hm2] at h; exact absurd h (by simp)
      | some q2 =>
        rw [hm1, hm2] at h
        injection h with h
        subst h
        simp only [children] at hcc
        rcases List.mem_cons.mp hcc with rfl | hcc
        · exact ⟨x, hm1⟩
        exact mapSnd_image hm2 cc hcc
  | .Merge mh mu mt, e', h, cc, hcc => by
    simp only [mapChildren] at h
    cases hm1 : f mh with
    | none => rw [hm1] at h; exact absurd h (by simp)
    | some q1 =>
      cases hm2 : f mu with
      | none => rw [hm1, hm2] at h; exact absurd h (by simp)
      | some q2 =>
        cases hm3 : mapOpt f mt with
        | none => rw [hm1, hm2, hm3] at h; exact absurd h (by simp)
        | some q3 =>
          rw [hm1, hm2, hm3] at h
          injection h with h
          subst h
          simp only [children] at hcc
          rcases List.mem_append.mp hcc with hcc | hcc
          · rcases List.mem_cons.mp hcc with rfl | hcc
            · exact ⟨mh, hm1⟩
            rcases List.mem_cons.mp hcc with rfl | hcc
            · exact ⟨mu, hm2⟩
            exact absurd hcc (List.not_mem_nil cc)
          exact mapOpt_image hm3 cc hcc
  | .Field e lb, e', h, cc, hcc => by
    simp only [mapChildren] at h
    cases hm1 : f e with
    | none => rw [hm1] at h; exact absurd h (by simp)
    | some q1 =>
      rw [hm1] at h
      injection h with h
      subst h
      simp only [children] at hcc
      rcases List.mem_cons.mp hcc with rfl | hcc
      · exact ⟨e, hm1⟩
      exact absurd hcc (List.not_mem_nil cc)
  | .Projection e ls, e', h, cc, hcc => by
    simp only [mapChildren] at h
    cases hm1 : f e with
    | none => rw [hm1] at h; exact absurd h (by simp)
    | some q1 =>
      rw [hm1] at h
      injection h with h
      subst h
      simp only [children] at hcc
      rcases List.mem_cons.mp hcc with rfl | hcc
      · exact ⟨e, hm1⟩
      exact absurd hcc (List.not_mem_nil cc)

/-- When every immediate subexpression is a fixpoint of the child function,
a `map_ref_simple` layer returns the expression unchanged. -/
theorem mapChildren_id {f : Expr → Option Expr} :
    ∀ {e : Expr}, (∀ c ∈ children e, f c = some c) → mapChildren f e = some e
  | .Const c, _ => rfl
  | .Var v, _ => rfl
  | .Lam x t b, h => by
    simp only [mapChildren]
    rw [h t (by simp [children]), h b (by simp [children])]
  | .Pi x t b, h => by
    simp only [mapChildren]
    rw [h t (by simp [children]), h b (by simp [children])]
  | .App g args, h => by
    simp only [mapChildren]
    rw [h g (by simp [children]), mapMo_id (fun a ha => h a (by simp only [children, List.mem_cons]; exact Or.inr ha))]
  | .Let x t r b, h => by
    simp only [mapChildren]
    rw [mapOpt_id (fun a ha => h a (by simp only [children]; exact List.mem_append.mpr (Or.inl ha))), h r (by simp [children]), h b (by simp [children])]
  | .Annot e t, h => by
    simp only [mapChildren]
    rw [h e (by simp [children]), h t (by simp [children])]
  | .Builtin b, _ => rfl
  | .BoolLit b, _ => rfl
  | .NaturalLit n, _ => rfl
  | .IntegerLit n, _ => rfl
  | .DoubleLit d, _ => rfl
  | .TextLit hh chunks, h => by
    simp only [mapChildren]
    rw [mapFst_id (fun p hp => h p.1 (by simp only [children]; exact List.mem_map_of_mem _ hp))]
  | .BinOp op l r, h => by
    simp only [mapChildren]
    rw [h l (by simp [children]), h r (by simp [children])]
  | .BoolIf c t e, h => by
    simp only [mapChildren]
    rw [h c (by simp [children]), h t (by simp [children]), h e (by simp [children])]
  | .EmptyListLit t, h => by
    simp only [mapChildren]
    rw [h t (by simp [children])]
  | .NEListLit xs, h => by
    simp only [mapChildren]
    rw [mapMo_id (fun a ha => h a (by simp only [children]; exact ha))]
  | .EmptyOptionalLit t, h => by
    simp only [mapChildren]
    rw [h t (by simp [children])]
  | .NEOptionalLit x, h => by
    simp only [mapChildren]
    rw [h x (by simp [children])]
  | .RecordType kts, h => by
    simp only [mapChildren]
    rw [mapSnd_id (fun p hp => h p.2 (by simp only [children]; exact List.mem_map_of_mem _ hp))]
  | .RecordLit kvs, h => by
    simp only [mapChildren]
    rw [mapSnd_id (fun p hp => h p.2 (by simp only [children]; exact List.mem_map_of_mem _ hp))]
  | .UnionType kts, h => by
    simp only [mapChildren]
    rw [mapSnd_id (fun p hp => h p.2 (by simp only [children]; exact List.mem_map_of_mem _ hp))]
  | .UnionLit lb x kts, h => by
    simp only [mapChildren]
    rw [h x (by simp [children]), mapSnd_id (fun p hp => h p.2 (by simp only [children, List.mem_cons]; exact Or.inr (List.mem_map_of_mem _ hp)))]
  | .Merge mh mu mt, h => by
    simp only [mapChildren]
    rw [h mh (by simp [children]), h mu (by simp [children]), mapOpt_id (fun a ha => h a (by simp only [children]; exact List.mem_append.mpr (Or.inr ha)))]
  | .Field e lb, h => by
    simp only [mapChildren]
    rw [h e (by simp [children])]
  | .Projection e ls, h => by
    simp only [mapChildren]
    rw [h e (by simp [children])]


/-- Unfolding of one fuel step when the children normalization fails. -/
theorem normalizeRef_succ_none {n : Nat} {e : Expr}
    (hc : mapChildren (normalizeRef n) e = none) :
    normalizeRef (n + 1) e = none := by
  simp only [normalizeRef, hc]

/-- Unfolding of one fuel step when the children normalization succeeds. -/
theorem normalizeRef_succ_eq {n : Nat} {e e1 : Expr}
    (hc : mapChildren (normalizeRef n) e = some e1) :
    normalizeRef (n + 1) e
      = match whatNext e1 with
        | .cont e2 => normalizeRef n e2
        | .done v => some v
        | .asIs => some e1 := by
  simp only [normalizeRef, hc]

/-- Fuel monotonicity: a completed normalization stays the same with more
fuel. -/
theorem normalizeRef_mono :
    ∀ {n m : Nat} {e v : Expr}, n ≤ m → normalizeRef n e = some v →
      normalizeRef m e = some v := by
  intro n
  induction n with
  | zero => intro m e v _ h; exact absurd h (by simp [normalizeRef])
  | succ n ih =>
    intro m e v hnm h
    obtain ⟨m', rfl⟩ : ∃ m', m = m' + 1 :=
      ⟨m - 1, by omega⟩
    have hmono : ∀ a b, normalizeRef n a = some b → normalizeRef m' a = some b :=
      fun a b hb => ih (by omega) hb
    cases hc : mapChildren (normalizeRef n) e with
    | none => rw [normalizeRef_succ_none hc] at h; exact absurd h (by simp)
    | some e1 =>
      rw [normalizeRef_succ_eq hc] at h
      rw [normalizeRef_succ_eq (mapChildren_mono hmono hc)]
      cases hw : whatNext e1 with
      | cont e2 => rw [hw] at h; exact hmono e2 v h
      | done v' => rw [hw] at h; exact h
      | asIs => rw [hw] at h; exact h

/-- A common fuel for a finite family of normalizer fixpoints. -/
theorem fixE_list_fuel :
    ∀ {L : List Expr}, (∀ c ∈ L, FixE c) →
      ∃ N, ∀ c ∈ L, normalizeRef N c = some c
  | [], _ => ⟨1, by intro c hc; exact absurd hc (List.not_mem_nil c)⟩
  | x :: xs, h => by
    obtain ⟨n1, h1⟩ := h x (List.mem_cons_self _ _)
    obtain ⟨N, hN⟩ := fixE_list_fuel (fun c hc => h c (List.mem_cons_of_mem _ hc))
    refine ⟨max n1 N, ?_⟩
    intro c hc
    rcases List.mem_cons.mp hc with rfl | hc
    · exact normalizeRef_mono (Nat.le_max_left _ _) h1
    · exact normalizeRef_mono (Nat.le_max_right _ _) (hN c hc)

/-- An expression whose head step is `DoneAsIs` and whose immediate
subexpressions are normalizer fixpoints is itself a fixpoint. -/
theorem fixE_of_asIs {e : Expr} (hw : whatNext e = .asIs)
    (hch : ∀ c ∈ children e, FixE c) : FixE e := by
  obtain ⟨N, hN⟩ := fixE_list_fuel hch
  refine ⟨N + 1, ?_⟩
  rw [normalizeRef_succ_eq (mapChildren_id hN), hw]

/-- `apply_builtin` only ever answers `Continue` or `DoneAsIs`. -/
theorem applyBuiltin_ne_done (b : Builtin) (args : List Expr) (v : Expr) :
    applyBuiltin b args ≠ .done v := by
  unfold applyBuiltin
  split <;> first
    | exact fun h => WhatNext.noConfusion h
    | (split <;> exact fun h => WhatNext.noConfusion h)


/-- The stuck heads are not rewritten by the dispatch. -/
theorem whatNext_neListLit (xs : List Expr) :
    whatNext (.NEListLit xs) = .asIs := rfl

/-- Record literals are not rewritten by the dispatch. -/
theorem whatNext_recordLit (kvs : List (Label × Expr)) :
    whatNext (.RecordLit kvs) = .asIs := rfl

/-- Text literals are not rewritten by the dispatch. -/
theorem whatNext_textLit (h : String) (ch : List (Expr × String)) :
    whatNext (.TextLit h ch) = .asIs := rfl

/-- Elements of a fixpoint list literal are fixpoints. -/
theorem fixE_neListLit_elim {xs : List Expr} (h : FixE (.NEListLit xs)) :
    ∀ x ∈ xs, FixE x := by
  obtain ⟨n, hn⟩ := h
  match n, hn with
  | 0, hn => exact absurd hn (by simp [normalizeRef])
  | n + 1, hn =>
    cases hc : mapChildren (normalizeRef n) (.NEListLit xs) with
    | none => rw [normalizeRef_succ_none hc] at hn; exact absurd hn (by simp)
    | some e1 =>
      rw [normalizeRef_succ_eq hc] at hn
      simp only [mapChildren] at hc
      cases hmm : mapMo (normalizeRef n) xs with
      | none => rw [hmm] at hc; exact absurd hc (by simp)
      | some xs1 =>
        rw [hmm] at hc
        injection hc with hc
        subst hc
        rw [whatNext_neListLit] at hn
        have hx : xs1 = xs := by
          have h2 := Option.some.inj (show some (Expr.NEListLit xs1)
            = some (.NEListLit xs) from hn)
          injection h2
        subst hx
        intro x hx
        exact ⟨n, mapMo_eq_self hmm x hx⟩

/-- Field values of a fixpoint record literal are fixpoints. -/
theorem fixE_recordLit_elim {kvs : List (Label × Expr)}
    (h : FixE (.RecordLit kvs)) : ∀ x ∈ kvs.map Prod.snd, FixE x := by
  obtain ⟨n, hn⟩ := h
  match n, hn with
  | 0, hn => exact absurd hn (by simp [normalizeRef])
  | n + 1, hn =>
    cases hc : mapChildren (normalizeRef n) (.RecordLit kvs) with
    | none => rw [normalizeRef_succ_none hc] at hn; exact absurd hn (by simp)
    | some e1 =>
      rw [normalizeRef_succ_eq hc] at hn
      simp only [mapChildren] at hc
      cases hmm : mapSnd (normalizeRef n) kvs with
      | none => rw [hmm] at hc; exact absurd hc (by simp)
      | some kvs1 =>
        rw [hmm] at hc
        injection hc with hc
        subst hc
        rw [whatNext_recordLit] at hn
        have hx : kvs1 = kvs := by
          have h2 := Option.some.inj (show some (Expr.RecordLit kvs1)
            = some (.RecordLit kvs) from hn)
          injection h2
        subst hx
        intro x hx
        obtain ⟨p, hp, rfl⟩ := List.mem_map.mp hx
        exact ⟨n, mapSnd_eq_self hmm p hp⟩

/-- Interpolated subexpressions of a fixpoint text literal are fixpoints. -/
theorem fixE_textLit_elim {hd : String} {ch : List (Expr × String)}
    (h : FixE (.TextLit hd ch)) : ∀ x ∈ ch.map Prod.fst, FixE x := by
  obtain ⟨n, hn⟩ := h
  match n, hn with
  | 0, hn => exact absurd hn (by simp [normalizeRef])
  | n + 1, hn =>
    cases hc : mapChildren (normalizeRef n) (.TextLit hd ch) with
    | none => rw [normalizeRef_succ_none hc] at hn; exact absurd hn (by simp)
    | some e1 =>
      rw [normalizeRef_succ_eq hc] at hn
      simp only [mapChildren] at hc
      cases hmm : mapFst (normalizeRef n) ch with
      | none => rw [hmm] at hc; exact absurd hc (by simp)
      | some ch1 =>
        rw [hmm] at hc
        injection hc with hc
        subst hc
        rw [whatNext_textLit] at hn
        have hx : ch1 = ch := by
          have h2 := Option.some.inj (show some (Expr.TextLit hd ch1)
            = some (.TextLit hd ch) from hn)
          cases h2
          rfl
        subst hx
        intro x hx
        obtain ⟨p, hp, rfl⟩ := List.mem_map.mp hx
        exact ⟨n, mapFst_eq_self hmm p hp⟩

/-- A list literal of fixpoints is a fixpoint. -/
theorem fixE_neListLit_intro {xs : List Expr} (h : ∀ x ∈ xs, FixE x) :
    FixE (.NEListLit xs) :=
  fixE_of_asIs (whatNext_neListLit xs) (by simpa [children] using h)

/-- A record literal of fixpoints is a fixpoint. -/
theorem fixE_recordLit_intro {kvs : List (Label × Expr)}
    (h : ∀ x ∈ kvs.map Prod.snd, FixE x) : FixE (.RecordLit kvs) :=
  fixE_of_asIs (whatNext_recordLit kvs) (by simpa [children] using h)

/-- A text literal whose interpolations are fixpoints is a fixpoint. -/
theorem fixE_textLit_intro {hd : String} {ch : List (Expr × String)}
    (h : ∀ x ∈ ch.map Prod.fst, FixE x) : FixE (.TextLit hd ch) :=
  fixE_of_asIs (whatNext_textLit hd ch) (by simpa [children] using h)

/-- A record field found by `lookupE` is one of the map's values. -/
theorem lookupE_mem {kvs : List (Label × Expr)} {l : Label} {r : Expr}
    (h : lookupE kvs l = some r) : r ∈ kvs.map Prod.snd := by
  unfold lookupE at h
  cases hf : kvs.find? (fun p => p.1 = l) with
  | none => rw [hf] at h; exact absurd h (by simp)
  | some p =>
    rw [hf] at h
    have hp : p.2 = r := by
      have := Option.some.inj (show some p.2 = some r from h)
      exact this
    exact hp ▸ List.mem_map_of_mem Prod.snd (List.mem_of_find?_eq_some hf)

/-- Interpolations produced by `chunksAppend` come from its inputs. -/
theorem chunksAppend_fst (h2 : String) (c2 : List (Expr × String)) :
    ∀ (p : Expr × String) (l : List (Expr × String)) (q : Expr × String),
      q ∈ chunksAppend h2 c2 p l →
      q.1 = p.1 ∨ q.1 ∈ l.map Prod.fst ∨ q.1 ∈ c2.map Prod.fst
  | p, [], q, hq => by
    simp only [chunksAppend] at hq
    rcases List.mem_cons.mp hq with rfl | hq
    · exact Or.inl rfl
    · exact Or.inr (Or.inr (List.mem_map_of_mem _ hq))
  | p, r :: rest, q, hq => by
    simp only [chunksAppend] at hq
    rcases List.mem_cons.mp hq with rfl | hq
    · exact Or.inl rfl
    · rcases chunksAppend_fst h2 c2 r rest q hq with h | h | h
      · exact Or.inr (Or.inl (by
          simp only [List.map_cons, List.mem_cons]
          exact Or.inl h))
      · exact Or.inr (Or.inl (by
          simp only [List.map_cons, List.mem_cons]
          exact Or.inr h))
      · exact Or.inr (Or.inr h)

/-- Interpolations of a text concatenation come from the two sides. -/
theorem textAppend_fst {h1 : String} {c1 : List (Expr × String)}
    {h2 : String} {c2 : List (Expr × String)} :
    ∀ q ∈ (textAppend h1 c1 h2 c2).2,
      q.1 ∈ c1.map Prod.fst ∨ q.1 ∈ c2.map Prod.fst := by
  intro q hq
  cases c1 with
  | nil =>
    simp only [textAppend] at hq
    exact Or.inr (List.mem_map_of_mem _ hq)
  | cons p rest =>
    simp only [textAppend] at hq
    rcases chunksAppend_fst h2 c2 p rest q hq with h | h | h
    · exact Or.inl (by
        simp only [List.map_cons, List.mem_cons]
        exact Or.inl h)
    · exact Or.inl (by
        simp only [List.map_cons, List.mem_cons]
        exact Or.inr h)
    · exact Or.inr h


theorem fixE_of_done {e v : Expr} (hw : whatNext e = .done v)
    (hch : ∀ c ∈ children e, FixE c) : FixE v := by
  unfold whatNext at hw
  split at hw
  all_goals try exact WhatNext.noConfusion hw
  all_goals try exact absurd hw (applyBuiltin_ne_done _ _ _)
  all_goals try (injection hw with hw; subst hw; first
    | (refine hch _ ?_; simp [children]; done)
    | (refine fixE_of_asIs rfl ?_; simp [children]; done))
  all_goals try (split at hw <;> exact WhatNext.noConfusion hw)
  -- remaining: TextAppend, ListAppend of two list literals, Field lookup,
  -- non-empty Projection
  · rename_i h1 c1 h2 c2
    injection hw with hw
    subst hw
    refine fixE_textLit_intro ?_
    intro c hc
    obtain ⟨q, hq, rfl⟩ := List.mem_map.mp hc
    rcases textAppend_fst q hq with h | h
    · exact fixE_textLit_elim (hch (.TextLit h1 c1) (by simp [children])) q.1 h
    · exact fixE_textLit_elim (hch (.TextLit h2 c2) (by simp [children])) q.1 h
  · rename_i xs ys
    injection hw with hw
    subst hw
    refine fixE_neListLit_intro ?_
    intro x hx
    rcases List.mem_append.mp hx with hx | hx
    · exact fixE_neListLit_elim (hch (.NEListLit xs) (by simp [children])) x hx
    · exact fixE_neListLit_elim (hch (.NEListLit ys) (by simp [children])) x hx
  · rename_i kvs l
    split at hw
    · rename_i r hr
      injection hw with hw
      subst hw
      exact fixE_recordLit_elim (hch (.RecordLit kvs) (by simp [children])) _
        (lookupE_mem hr)
    · exact WhatNext.noConfusion hw
  · rename_i kvs ls hne
    injection hw with hw
    subst hw
    refine fixE_recordLit_intro ?_
    intro x hx
    obtain ⟨p, hp, rfl⟩ := List.mem_map.mp hx
    obtain ⟨l, hl, hsome⟩ := List.mem_filterMap.mp hp
    cases hlk : lookupE kvs l with
    | none => rw [hlk] at hsome; exact absurd hsome (by simp)
    | some r =>
      rw [hlk] at hsome
      have hpr : (l, r) = p :=
        Option.some.inj (show some (l, r) = some p from hsome)
      subst hpr
      exact fixE_recordLit_elim (hch (.RecordLit kvs) (by simp [children])) r
        (lookupE_mem hlk)


/-- Outputs of the fuel-bounded normalizer are normalizer fixpoints. -/
theorem normalizeRef_fix :
    ∀ {n : Nat} {e v : Expr}, normalizeRef n e = some v → FixE v := by
  intro n
  induction n with
  | zero => intro e v h; exact absurd h (by simp [normalizeRef])
  | succ n ih =>
    intro e v h
    cases hc : mapChildren (normalizeRef n) e with
    | none => rw [normalizeRef_succ_none hc] at h; exact absurd h (by simp)
    | some e1 =>
      rw [normalizeRef_succ_eq hc] at h
      have hch : ∀ c ∈ children e1, FixE c := by
        intro c hcc
        obtain ⟨a, ha⟩ := mapChildren_image hc c hcc
        exact ih ha
      cases hw : whatNext e1 with
      | cont e2 => rw [hw] at h; exact ih h
      | done v' =>
        rw [hw] at h
        have hv : v' = v := Option.some.inj h
        exact hv ▸ fixE_of_done hw hch
      | asIs =>
        rw [hw] at h
        have hv : e1 = v := Option.some.inj h
        exact hv ▸ fixE_of_asIs hw hch

/-- C7: normalization is idempotent — whenever `normalize_ref` completes
(with any fuel `n`) and returns `v`, renormalizing `v` (with enough fuel)
returns `v` itself: `normalize(normalize(e)) = normalize(e)`. -/
theorem c7_theorem {n : Nat} {e v : Expr}
    (h : normalizeRef n e = some v) : ∃ m, normalizeRef m v = some v :=
  normalizeRef_fix h

/-- C7 (witness): `(1 + 2)` normalizes to `3`, and `3` renormalizes to
itself. -/
theorem c7_witness :
    normalizeRef 2 (.BinOp .NaturalPlus (.NaturalLit 1) (.NaturalLit 2))
      = some (.NaturalLit 3) ∧
    ∃ m, normalizeRef m (.NaturalLit 3) = some (.NaturalLit 3) :=
  ⟨rfl,
   c7_theorem (rfl : normalizeRef 2
     (.BinOp .NaturalPlus (.NaturalLit 1) (.NaturalLit 2))
       = some (.NaturalLit 3))⟩

/-- `λ(x : Type) → x x` is a normal form at any sufficient fuel. -/
theorem normalizeRef_omegaFun_succ (n : Nat) :
    normalizeRef (n + 3) omegaFun = some omegaFun := rfl

/-- At every fuel, `λ(x : Type) → x x` either exhausts the fuel or returns
itself. -/
theorem normalizeRef_omegaFun_cases (n : Nat) :
    normalizeRef n omegaFun = none ∨ normalizeRef n omegaFun = some omegaFun := by
  match n with
  | 0 => exact Or.inl rfl
  | 1 => exact Or.inl rfl
  | 2 => exact Or.inl rfl
  | (m + 3) => exact Or.inr (normalizeRef_omegaFun_succ m)

/-- If `Ω` exhausts every smaller fuel, so does the wrapped `App Ω []` the
beta step rewrites to. -/
theorem normalizeRef_appOmega (m : Nat)
    (h : ∀ j, j < m → normalizeRef j omegaLoop = none) :
    normalizeRef m (.App omegaLoop []) = none := by
  match m with
  | 0 => rfl
  | (k + 1) =>
    have hc : mapChildren (normalizeRef k) (.App omegaLoop []) = none := by
      simp only [mapChildren, h k (by omega)]
    exact normalizeRef_succ_none hc

/-- C6: the normalizer is not total.  On the ill-typed
`Ω = (λ(x : Type) → x x) (λ(x : Type) → x x)` the fuel-bounded embedding of
`normalize_ref` fails to complete at every fuel: the beta step rewrites `Ω`
to itself and the recursion never terminates, contradicting the claim (and
the function's own documentation) that normalization is total on arbitrary
input. -/
theorem c6_theorem : ∀ n, normalizeRef n omegaLoop = none := by
  intro n
  induction n using Nat.strong_induction_on with
  | _ n ih =>
    match n with
    | 0 => rfl
    | (m + 1) =>
      rcases normalizeRef_omegaFun_cases m with hm | hm
      · have hc : mapChildren (normalizeRef m) omegaLoop = none := by
          simp only [omegaLoop, mapChildren, hm]
        exact normalizeRef_succ_none hc
      · have hc : mapChildren (normalizeRef m) omegaLoop = some omegaLoop := by
          simp only [omegaLoop, mapChildren, mapMo, hm]
        rw [normalizeRef_succ_eq hc]
        have hwn : whatNext omegaLoop = .cont (.App omegaLoop []) := by
          simp only [omegaLoop, omegaFun, whatNext, substShiftE,
            substShiftEList]
          rfl
        rw [hwn]
        exact normalizeRef_appOmega m (fun j hj => ih j (by omega))

/-- C4 (counterexample): normalizing `List/fold Natural (List/build Natural
g)` for a stuck variable `g` does not yield `g`: the build η-expands around
`g` and the outer partial `List/fold` application remains stuck, so the
claimed fold∘build fusion does not hold for stuck `g`. -/
theorem c4_counterexample :
    normalizeRef 10 c4Input = some c4Stuck ∧
    normalizeRef 10 (.Var ⟨"g", 0⟩) = some (.Var ⟨"g", 0⟩) ∧
    c4Stuck.isVar = false :=
  ⟨rfl, rfl, rfl⟩

/-- C4 (amended): the fusion the normalizer implements is in the build∘fold
direction: `apply_builtin` reduces `List/build a (List/fold a' x args…)`
directly to `x args…` (bypassing the η-expansion), and symmetrically for
the Optional and Natural pairs; concretely, `List/build Natural (List/fold
Natural h)` normalizes to `h` for a stuck variable `h`.  The fold∘build
direction of the claim is not implemented (it is commented out in
`normalize.rs`). -/
theorem c4_amended :
    (∀ (a a' x : Expr) (restInner rest : List Expr),
      applyBuiltin .ListBuild
          (a :: .App (.Builtin .ListFold) (a' :: x :: restInner) :: rest)
        = .cont (.App (.App x restInner) rest)) ∧
    (∀ (a a' x : Expr) (restInner rest : List Expr),
      applyBuiltin .OptionalBuild
          (a :: .App (.Builtin .OptionalFold) (a' :: x :: restInner) :: rest)
        = .cont (.App (.App x restInner) rest)) ∧
    (∀ (x : Expr) (restInner rest : List Expr),
      applyBuiltin .NaturalBuild
          (.App (.Builtin .NaturalFold) (x :: restInner) :: rest)
        = .cont (.App (.App x restInner) rest)) ∧
    normalizeRef 10 c4FusionInput = some (.Var ⟨"h", 0⟩) :=
  ⟨fun _ _ _ _ _ => rfl, fun _ _ _ _ _ => rfl, fun _ _ _ => rfl, rfl⟩


/-- C10 (witness): a concrete substitution — replacing `x@0` by `7` inside
`λ(y : x@0) → x@1` with stuck re-normalization helpers — succeeds, and the
decrement of the non-matching `y@0` also succeeds, by the theorem. -/
theorem c10_witness :
    (substShiftV (fun b args => .AppliedBuiltin b args) (fun _ => .Const .type)
        (fun x => x) ⟨"x", 0⟩ (.NaturalLit 7)
        (.Lam "y" (.Var ⟨"x", 0⟩) (.Var ⟨"x", 1⟩))).isSome = true ∧
    (varShift (-1) ⟨"x", 0⟩ ⟨"y", 0⟩).isSome = true :=
  ⟨(c10_theorem (fun b args => .AppliedBuiltin b args) (fun _ => .Const .type)
      (fun x => x) ⟨"x", 0⟩ (.NaturalLit 7)
      (.Lam "y" (.Var ⟨"x", 0⟩) (.Var ⟨"x", 1⟩))).1,
   (c10_theorem (fun b args => .AppliedBuiltin b args) (fun _ => .Const .type)
      (fun x => x) ⟨"x", 0⟩ (.NaturalLit 7) (.Const .type)).2
     ⟨"y", 0⟩ (by decide)⟩

end Dhall
